import Mathlib

/-!
# PythonInputSource (src/qpdf/qpdf_inputsource.h)

A shallow embedding of the `PythonInputSource` adapter: a qpdf `InputSource`
whose bytes come from a Python stream object that offers `readable`,
`seekable`, `tell`, `seek` and `readinto`.

* The Python stream is external to the adapter.  It is represented by a record
  of primitives (`StreamOps`) over an arbitrary state type; every primitive
  returns the Python-level outcome (a value or a raised exception) together
  with the stream's next state.
* The adapter's own state is the record `PythonInputSource`: the stream, the
  name and the inherited `last_offset` field.
* C++ exceptions are the `Except.error` outcomes; an exception leaves the
  state reached so far.
* `qpdf_offset_t` and `size_t` are 64 bit wide.  Offsets are embedded as `Int`
  and sizes as `Nat`: all arithmetic of the adapter is `cur_offset + found`
  and `result + 1`, on offsets within a stream, which stay far below `2^63`.
* The two `while (!done)` loops are embedded with a fuel argument; `none` is
  the outcome "fuel exhausted" and never stands for a result of the code.
-/

namespace PikePdf

/-! ## Python side -/

/-- Bytes (`char`) are embedded as natural numbers. -/
abbrev Byte := Nat

/-- Python exceptions that reach the adapter as C++ exceptions. -/
inductive PyErr where
  | valueError (msg : String)
  | osError (msg : String)
  deriving DecidableEq, Repr

/-- Python values returned by the capability probes. -/
inductive PyValue where
  | none
  | bool (b : Bool)
  | int (i : Int)
  deriving DecidableEq, Repr

/-- A pybind11 `py::object`: a pointer that is null or refers to a Python value. -/
inductive PyObject where
  | null
  | ref (v : PyValue)
  deriving DecidableEq, Repr

/-- The conversion `explicit operator bool()` of pybind11's `handle`, which is what
`!obj` applies to a `py::object`: `m_ptr != nullptr`.  It tests the pointer, not
the truth value of the Python object. -/
def PyObject.operatorBool : PyObject → Bool
  | .null => false
  | .ref _ => true

/-- Outcome of a call into a stateful collaborator: the value or the exception,
and the state after the call. -/
abbrev Outcome (α σ : Type) := Except PyErr α × σ

/-- The primitives of the Python stream object held in `stream`.  `readinto n`
is the call `stream.readinto(view)` on a writable view of `n` bytes: it answers
`none` (Python `None`, no data available) or the bytes it stored at the front of
the view, whose number is the count it returns. -/
structure StreamOps (σ : Type) where
  readable : σ → Outcome PyValue σ
  seekable : σ → Outcome PyValue σ
  repr : σ → String
  tell : σ → Outcome Int σ
  seek : Int → Int → σ → Outcome Unit σ
  readinto : Nat → σ → Outcome (Option (List Byte)) σ

/-- Whence values of `<cstdio>`. -/
def SEEK_SET : Int := 0

/-- Whence value: relative to the current position. -/
def SEEK_CUR : Int := 1

/-- Whence value: relative to the end. -/
def SEEK_END : Int := 2

/-! ## The adapter -/

/-- The object state: `stream`, `name`, and `last_offset` inherited from
`InputSource`. -/
structure PythonInputSource (σ : Type) where
  stream : σ
  name : String
  last_offset : Int

variable {σ : Type}

/-- Constructor `PythonInputSource(py::object stream)`, lines 31-38.  A call
`stream.attr("readable")()` that returns yields a non-null `py::object`; `!`
applies `operatorBool` to it.  `last_offset` starts at 0 (base class).  An
exception (`Except.error`) means that no object is constructed. -/
def PythonInputSource.new (H : StreamOps σ) (stream : σ) :
    Outcome (PythonInputSource σ) σ :=
  match H.readable stream with
  | (.error e, st1) => (.error e, st1)
  | (.ok r, st1) =>
    if !(PyObject.ref r).operatorBool then
      (.error (.valueError "not readable"), st1)
    else
      match H.seekable st1 with
      | (.error e, st2) => (.error e, st2)
      | (.ok k, st2) =>
        if !(PyObject.ref k).operatorBool then
          (.error (.valueError "not seekable"), st2)
        else
          (.ok { stream := st2, name := H.repr st2, last_offset := 0 }, st2)

/-- Accessor `getName()`, lines 41-44. -/
def getName (s : PythonInputSource σ) : String := s.name

/-- Method `tell()`, lines 46-50. -/
def tell (H : StreamOps σ) (s : PythonInputSource σ) : Outcome Int (PythonInputSource σ) :=
  match H.tell s.stream with
  | (r, st) => (r, { s with stream := st })

/-- Method `seek(offset, whence)`, lines 52-56. -/
def seek (H : StreamOps σ) (offset : Int) (whence : Int) (s : PythonInputSource σ) :
    Outcome Unit (PythonInputSource σ) :=
  match H.seek offset whence s.stream with
  | (r, st) => (r, { s with stream := st })

/-- Method `rewind()`, lines 58-62. -/
def rewind (H : StreamOps σ) (s : PythonInputSource σ) : Outcome Unit (PythonInputSource σ) :=
  match H.seek 0 0 s.stream with
  | (r, st) => (r, { s with stream := st })

/-- The caller's buffer after the stream stored `data` at the front of a view of
`length` bytes over it. -/
def blit (data : List Byte) (length : Nat) (buffer : List Byte) : List Byte :=
  data.take length ++ buffer.drop (data.take length).length

/-- Method `read(buffer, length)`, lines 64-85.  The result is `bytes_read` and the
buffer's content after the call. -/
def read (H : StreamOps σ) (buffer : List Byte) (length : Nat) (s : PythonInputSource σ) :
    Outcome (Nat × List Byte) (PythonInputSource σ) :=
  match tell H s with
  | (.error e, s1) => (.error e, s1)
  | (.ok off, s1) =>
    let s2 := { s1 with last_offset := off }
    match H.readinto length s2.stream with
    | (.error e, st) => (.error e, { s2 with stream := st })
    | (.ok none, st) => (.ok (0, buffer), { s2 with stream := st })
    | (.ok (some data), st) =>
      let s3 := { s2 with stream := st }
      let bytes_read := data.length
      if bytes_read = 0 then
        if length > 0 then
          match seek H 0 SEEK_END s3 with
          | (.error e, s4) => (.error e, s4)
          | (.ok _, s4) =>
            match tell H s4 with
            | (.error e, s5) => (.error e, s5)
            | (.ok off2, s5) =>
              (.ok (bytes_read, blit data length buffer), { s5 with last_offset := off2 })
        else
          (.ok (bytes_read, blit data length buffer), s3)
      else
        (.ok (bytes_read, blit data length buffer), s3)

/-- Method `unreadCh(ch)`, lines 87-90. -/
def unreadCh (H : StreamOps σ) (_ch : Byte) (s : PythonInputSource σ) :
    Outcome Unit (PythonInputSource σ) :=
  seek H (-1) SEEK_CUR s

/-- Carriage return. -/
def CR : Byte := 13

/-- Line feed. -/
def LF : Byte := 10

/-- Membership in `line_endings = "\r\n"`. -/
def isLineEnding (b : Byte) : Bool := b == CR || b == LF

/-- The call `buf.find_first_of(line_endings)` over the whole string `buf`;
`none` is `std::string::npos`. -/
def find_first_of : List Byte → Option Nat
  | [] => none
  | b :: bs => if isLineEnding b then some 0 else (find_first_of bs).map (· + 1)

/-- The inner loop of `findAndSkipNextEOL`, lines 120-127; `ch` is the one-byte
buffer `char ch`. -/
def skipLoop (H : StreamOps σ) : Nat → List Byte → PythonInputSource σ →
    Option (Outcome Unit (PythonInputSource σ))
  | 0, _, _ => none
  | fuel + 1, ch, s =>
    match read H ch 1 s with
    | (.error e, s1) => some (.error e, s1)
    | (.ok (n, ch1), s1) =>
      if n = 0 then
        some (.ok (), s1)
      else if !(ch1.headD 0 == CR || ch1.headD 0 == LF) then
        some (unreadCh H (ch1.headD 0) s1)
      else
        skipLoop H fuel ch1 s1

/-- The outer loop of `findAndSkipNextEOL`, lines 103-129; `buf` is the scan
buffer, which lives across the iterations. -/
def scanLoop (H : StreamOps σ) : Nat → List Byte → PythonInputSource σ →
    Option (Outcome Int (PythonInputSource σ))
  | 0, _, _ => none
  | fuel + 1, buf, s =>
    match tell H s with
    | (.error e, s1) => some (.error e, s1)
    | (.ok cur_offset, s1) =>
      match read H buf buf.length s1 with
      | (.error e, s2) => some (.error e, s2)
      | (.ok (len, buf1), s2) =>
        if len = 0 then
          match tell H s2 with
          | (.error e, s3) => some (.error e, s3)
          | (.ok result, s3) => some (.ok result, s3)
        else
          match find_first_of buf1 with
          | none => scanLoop H fuel buf1 s2
          | some found =>
            let result := cur_offset + (found : Int)
            match seek H (result + 1) SEEK_SET s2 with
            | (.error e, s3) => some (.error e, s3)
            | (.ok _, s3) =>
              match skipLoop H fuel [0] s3 with
              | none => none
              | some (.error e, s4) => some (.error e, s4)
              | some (.ok _, s4) => some (.ok result, s4)

/-- Method `findAndSkipNextEOL()` with the size of the scan buffer as a parameter. -/
def findAndSkipNextEOLWith (H : StreamOps σ) (bufSize : Nat) (fuel : Nat)
    (s : PythonInputSource σ) : Option (Outcome Int (PythonInputSource σ)) :=
  scanLoop H fuel (List.replicate bufSize 0) s

/-- Method `findAndSkipNextEOL()`, lines 92-131: `std::string buf(4096, '\0')`. -/
def findAndSkipNextEOL (H : StreamOps σ) (fuel : Nat) (s : PythonInputSource σ) :
    Option (Outcome Int (PythonInputSource σ)) :=
  findAndSkipNextEOLWith H 4096 fuel s

/-! ## Streams -/

/-- An in-memory seekable byte stream, behaving as Python's `io.BytesIO`, with a
schedule of short reads: each read that delivers data takes the next entry of
`chunks` as the number of bytes to deliver, brought into the range from 1 to the
number of bytes that fit and remain; with no entry left it delivers all of them. -/
structure MemStream where
  content : List Byte
  pos : Nat
  chunks : List Nat
  deriving DecidableEq, Repr

/-- Position query of the in-memory stream. -/
def MemStream.tell (m : MemStream) : Outcome Int MemStream := (.ok (m.pos : Int), m)

/-- Seek of the in-memory stream: absolute seeks reject a negative offset,
relative seeks stop at 0, positions past the end are allowed. -/
def MemStream.seek (offset : Int) (whence : Int) (m : MemStream) : Outcome Unit MemStream :=
  if whence = 0 then
    if offset < 0 then (.error (.valueError "negative seek value"), m)
    else (.ok (), { m with pos := offset.toNat })
  else if whence = 1 then
    (.ok (), { m with pos := ((m.pos : Int) + offset).toNat })
  else if whence = 2 then
    (.ok (), { m with pos := ((m.content.length : Int) + offset).toNat })
  else
    (.error (.valueError "invalid whence"), m)

/-- Read of the in-memory stream into a view of `n` bytes. -/
def MemStream.readinto (n : Nat) (m : MemStream) : Outcome (Option (List Byte)) MemStream :=
  let avail := min n (m.content.length - m.pos)
  if avail = 0 then
    (.ok (some []), m)
  else
    match m.chunks with
    | [] => (.ok (some ((m.content.drop m.pos).take avail)), { m with pos := m.pos + avail })
    | k :: ks =>
      let k1 := max 1 (min k avail)
      (.ok (some ((m.content.drop m.pos).take k1)), { m with pos := m.pos + k1, chunks := ks })

/-- The in-memory stream as a Python stream object. -/
def memOps : StreamOps MemStream where
  readable := fun m => (.ok (.bool true), m)
  seekable := fun m => (.ok (.bool true), m)
  repr := fun _ => "<_io.BytesIO object>"
  tell := MemStream.tell
  seek := MemStream.seek
  readinto := MemStream.readinto

/-- A stream object that reports the given capabilities and otherwise behaves as `H`. -/
def withCapabilities (r k : Bool) (H : StreamOps σ) : StreamOps σ :=
  { H with
    readable := fun s => (.ok (.bool r), s)
    seekable := fun s => (.ok (.bool k), s) }

/-- A stream object that has no data available: every `readinto` answers `None`. -/
def noDataOps : StreamOps Nat where
  readable := fun p => (.ok (.bool true), p)
  seekable := fun p => (.ok (.bool true), p)
  repr := fun _ => "<nonblocking>"
  tell := fun p => (.ok (p : Int), p)
  seek := fun off _ _ => (.ok (), off.toNat)
  readinto := fun _ p => (.ok none, p)

/-- Calls into the stream object. -/
inductive Call where
  | readable
  | seekable
  | tell
  | seek (offset : Int) (whence : Int)
  | readinto (n : Nat)
  deriving DecidableEq, Repr

/-- The stream object `H` with a record of the calls made to it, oldest first. -/
def logged (H : StreamOps σ) : StreamOps (σ × List Call) where
  readable := fun s => ((H.readable s.1).1, ((H.readable s.1).2, s.2 ++ [Call.readable]))
  seekable := fun s => ((H.seekable s.1).1, ((H.seekable s.1).2, s.2 ++ [Call.seekable]))
  repr := fun s => H.repr s.1
  tell := fun s => ((H.tell s.1).1, ((H.tell s.1).2, s.2 ++ [Call.tell]))
  seek := fun off wh s => ((H.seek off wh s.1).1, ((H.seek off wh s.1).2, s.2 ++ [Call.seek off wh]))
  readinto := fun n s => ((H.readinto n s.1).1, ((H.readinto n s.1).2, s.2 ++ [Call.readinto n]))

/-- An adapter over the in-memory stream with content `c` at position `p`. -/
def onMem (c : List Byte) (p : Nat) (chunks : List Nat) (last : Int) :
    PythonInputSource MemStream :=
  { stream := { content := c, pos := p, chunks := chunks },
    name := "<_io.BytesIO object>", last_offset := last }

/-- The returned offset and the stream position of a finished call. -/
def offsetAndPos : Option (Outcome Int (PythonInputSource MemStream)) → Option (Int × Nat)
  | some (.ok r, s) => some (r, s.stream.pos)
  | _ => none

/-! ## Reference functions on the content -/

/-- Whether the content has a line ending (CR or LF) at index `i`; false outside
the content. -/
def lineEndingAt (c : List Byte) (i : Nat) : Bool := isLineEnding (c.getD i 0)

/-- Index of the first line ending of a list, or its length when it has none. -/
def eolIdx : List Byte → Nat
  | [] => 0
  | b :: bs => if isLineEnding b then 0 else eolIdx bs + 1

/-- Length of the run of line endings at the front of a list. -/
def runLen : List Byte → Nat
  | [] => 0
  | b :: bs => if isLineEnding b then runLen bs + 1 else 0

/-- Number of bytes the next read of `n` bytes delivers when data remains. -/
def MemStream.nextChunk (n : Nat) (m : MemStream) : Nat :=
  match m.chunks with
  | [] => min n (m.content.length - m.pos)
  | k :: _ => max 1 (min k (min n (m.content.length - m.pos)))

/-! ## Further streams and drivers -/

/-- The in-memory stream as a stream object that answers `None` (no more data)
instead of a count of 0 when no byte remains at its position. -/
def memOpsNone : StreamOps MemStream :=
  { memOps with
    readinto := fun n m =>
      if m.content.length ≤ m.pos then (.ok none, m) else MemStream.readinto n m }

/-- A caller that invokes `findAndSkipNextEOL` `n` times in a row: the offsets
returned, in order, and the state after the last call. -/
def repeatCalls (H : StreamOps σ) (fuel : Nat) :
    Nat → PythonInputSource σ → Option (List Int × PythonInputSource σ)
  | 0, s => some ([], s)
  | n + 1, s =>
    match findAndSkipNextEOL H fuel s with
    | some (.ok r, s1) =>
      match repeatCalls H fuel n s1 with
      | some (rs, s2) => some (r :: rs, s2)
      | none => none
    | _ => none

/-- Whether a maximal run of consecutive CR/LF bytes of the content starts at
index `i`: a line ending at `i` that has no line ending right before it. -/
def isRunStart (c : List Byte) (i : Nat) : Bool :=
  lineEndingAt c i && (i == 0 || !lineEndingAt c (i - 1))

/-- The start offsets of the maximal runs of CR/LF bytes at or after `q`, in
increasing order. -/
def runStartsFrom (c : List Byte) (q : Nat) : List Nat :=
  (List.range' q (c.length - q)).filter (isRunStart c)

/-- The start offsets of the maximal runs of CR/LF bytes of the content. -/
def runStarts (c : List Byte) : List Nat := runStartsFrom c 0

/-- The states in which the outer loop of `findAndSkipNextEOL` begins a fill of its
scan buffer, from the start state `s0` with a buffer of `w` bytes: the first fill
begins with the zero-filled buffer, and a fill that returned `len ≠ 0` in whose
buffer the search found nothing (`continue`) is followed by another fill. -/
inductive FillState (H : StreamOps σ) (w : Nat) (s0 : PythonInputSource σ) :
    List Byte → PythonInputSource σ → Prop where
  | first : FillState H w s0 (List.replicate w 0) s0
  | next (buf : List Byte) (s : PythonInputSource σ) (cur_offset : Int)
      (s1 : PythonInputSource σ) (len : Nat) (buf1 : List Byte) (s2 : PythonInputSource σ) :
      FillState H w s0 buf s →
      tell H s = (.ok cur_offset, s1) →
      read H buf buf.length s1 = (.ok (len, buf1), s2) →
      len ≠ 0 → find_first_of buf1 = none →
      FillState H w s0 buf1 s2

/-- The value of `last_offset` after a finished call of `findAndSkipNextEOL`. -/
def lastOffsetAfter : Option (Outcome Int (PythonInputSource MemStream)) → Option Int
  | some (.ok _, s) => some s.last_offset
  | _ => none

/-- The offsets that `n` calls in a row are expected to return: the given offsets in
order, one per call, and `L` for every call after the last of them. -/
def answers (L : Int) : Nat → List Int → List Int
  | 0, _ => []
  | n + 1, [] => L :: answers L n []
  | n + 1, x :: xs => x :: answers L n xs

/-! ## Calls with their failures -/

/-- How the outcome of an operation relates to the calls it made: a value means that
no call failed; an exception `e` means that the last call made failed with `e` and
every call before it succeeded. -/
def Propagates {α : Type} (res : Except PyErr α) (added : List (Call × Option PyErr)) : Prop :=
  match res with
  | .ok _ => ∀ x ∈ added, x.2 = none
  | .error e => ∃ pre call, added = pre ++ [(call, some e)] ∧ ∀ x ∈ pre, x.2 = none

/-! ## The operations with the events of the exclusive-execution token

The definitions above leave out the lines `py::gil_scoped_acquire gil;`.  The
definitions below embed the same methods together with these lines, over a stream
object that records its calls as events.  `gil_scoped_acquire` is re-entrant: an
acquisition inside a scope that holds the token nests, and the token is given up
when the outermost scope is left. -/

/-- Events of a trace: the token is acquired, the token is released, the stream
object is called. -/
inductive Ev where
  | acquire
  | release
  | call (c : Call)
  deriving DecidableEq, Repr

/-- The stream object `H` with a trace in which each call is recorded as an event. -/
def traced (H : StreamOps σ) : StreamOps (σ × List Ev) where
  readable := fun s => ((H.readable s.1).1, ((H.readable s.1).2, s.2 ++ [Ev.call Call.readable]))
  seekable := fun s => ((H.seekable s.1).1, ((H.seekable s.1).2, s.2 ++ [Ev.call Call.seekable]))
  repr := fun s => H.repr s.1
  tell := fun s => ((H.tell s.1).1, ((H.tell s.1).2, s.2 ++ [Ev.call Call.tell]))
  seek := fun off wh s =>
    ((H.seek off wh s.1).1, ((H.seek off wh s.1).2, s.2 ++ [Ev.call (Call.seek off wh)]))
  readinto := fun n s =>
    ((H.readinto n s.1).1, ((H.readinto n s.1).2, s.2 ++ [Ev.call (Call.readinto n)]))

/-- Appends an event to the trace. -/
def emit (e : Ev) (s : PythonInputSource (σ × List Ev)) : PythonInputSource (σ × List Ev) :=
  { s with stream := (s.stream.1, s.stream.2 ++ [e]) }

/-- A function body that begins with `py::gil_scoped_acquire gil;`: the token is
acquired on entry and released when the scope is left, by return or by exception. -/
def gilScoped {α : Type} (body : PythonInputSource (σ × List Ev) →
    Outcome α (PythonInputSource (σ × List Ev))) (s : PythonInputSource (σ × List Ev)) :
    Outcome α (PythonInputSource (σ × List Ev)) :=
  match body (emit Ev.acquire s) with
  | (r, s1) => (r, emit Ev.release s1)

/-- Method `tell()`, lines 46-50, with line 48. -/
def tellG (H : StreamOps σ) (s : PythonInputSource (σ × List Ev)) :
    Outcome Int (PythonInputSource (σ × List Ev)) :=
  gilScoped (fun s0 =>
    match (traced H).tell s0.stream with
    | (r, st) => (r, { s0 with stream := st })) s

/-- Method `seek(offset, whence)`, lines 52-56, with line 54. -/
def seekG (H : StreamOps σ) (offset : Int) (whence : Int) (s : PythonInputSource (σ × List Ev)) :
    Outcome Unit (PythonInputSource (σ × List Ev)) :=
  gilScoped (fun s0 =>
    match (traced H).seek offset whence s0.stream with
    | (r, st) => (r, { s0 with stream := st })) s

/-- Method `rewind()`, lines 58-62, with line 60. -/
def rewindG (H : StreamOps σ) (s : PythonInputSource (σ × List Ev)) :
    Outcome Unit (PythonInputSource (σ × List Ev)) :=
  gilScoped (fun s0 =>
    match (traced H).seek 0 0 s0.stream with
    | (r, st) => (r, { s0 with stream := st })) s

/-- Method `read(buffer, length)`, lines 64-85, with line 66: the calls `this->tell()`
and `this->seek(...)` go through the methods, `readinto` is called directly. -/
def readG (H : StreamOps σ) (buffer : List Byte) (length : Nat)
    (s : PythonInputSource (σ × List Ev)) :
    Outcome (Nat × List Byte) (PythonInputSource (σ × List Ev)) :=
  gilScoped (fun s0 =>
    match tellG H s0 with
    | (.error e, s1) => (.error e, s1)
    | (.ok off, s1) =>
      let s2 := { s1 with last_offset := off }
      match (traced H).readinto length s2.stream with
      | (.error e, st) => (.error e, { s2 with stream := st })
      | (.ok none, st) => (.ok (0, buffer), { s2 with stream := st })
      | (.ok (some data), st) =>
        let s3 := { s2 with stream := st }
        let bytes_read := data.length
        if bytes_read = 0 then
          if length > 0 then
            match seekG H 0 SEEK_END s3 with
            | (.error e, s4) => (.error e, s4)
            | (.ok _, s4) =>
              match tellG H s4 with
              | (.error e, s5) => (.error e, s5)
              | (.ok off2, s5) =>
                (.ok (bytes_read, blit data length buffer), { s5 with last_offset := off2 })
          else
            (.ok (bytes_read, blit data length buffer), s3)
        else
          (.ok (bytes_read, blit data length buffer), s3)) s

/-- Method `unreadCh(ch)`, lines 87-90: no acquisition of its own. -/
def unreadChG (H : StreamOps σ) (_ch : Byte) (s : PythonInputSource (σ × List Ev)) :
    Outcome Unit (PythonInputSource (σ × List Ev)) :=
  seekG H (-1) SEEK_CUR s

/-- The inner loop of `findAndSkipNextEOL`, lines 120-127, over the methods with
their acquisitions. -/
def skipLoopG (H : StreamOps σ) : Nat → List Byte → PythonInputSource (σ × List Ev) →
    Option (Outcome Unit (PythonInputSource (σ × List Ev)))
  | 0, _, _ => none
  | fuel + 1, ch, s =>
    match readG H ch 1 s with
    | (.error e, s1) => some (.error e, s1)
    | (.ok (n, ch1), s1) =>
      if n = 0 then
        some (.ok (), s1)
      else if !(ch1.headD 0 == CR || ch1.headD 0 == LF) then
        some (unreadChG H (ch1.headD 0) s1)
      else
        skipLoopG H fuel ch1 s1

/-- The outer loop of `findAndSkipNextEOL`, lines 103-129, over the methods with
their acquisitions. -/
def scanLoopG (H : StreamOps σ) : Nat → List Byte → PythonInputSource (σ × List Ev) →
    Option (Outcome Int (PythonInputSource (σ × List Ev)))
  | 0, _, _ => none
  | fuel + 1, buf, s =>
    match tellG H s with
    | (.error e, s1) => some (.error e, s1)
    | (.ok cur_offset, s1) =>
      match readG H buf buf.length s1 with
      | (.error e, s2) => some (.error e, s2)
      | (.ok (len, buf1), s2) =>
        if len = 0 then
          match tellG H s2 with
          | (.error e, s3) => some (.error e, s3)
          | (.ok result, s3) => some (.ok result, s3)
        else
          match find_first_of buf1 with
          | none => scanLoopG H fuel buf1 s2
          | some found =>
            let result := cur_offset + (found : Int)
            match seekG H (result + 1) SEEK_SET s2 with
            | (.error e, s3) => some (.error e, s3)
            | (.ok _, s3) =>
              match skipLoopG H fuel [0] s3 with
              | none => none
              | some (.error e, s4) => some (.error e, s4)
              | some (.ok _, s4) => some (.ok result, s4)

/-- Method `findAndSkipNextEOL()`, lines 92-131, with line 94 and the size of the scan
buffer as a parameter: the token is acquired before the loop and released when the
method is left. -/
def findAndSkipNextEOLWithG (H : StreamOps σ) (bufSize : Nat) (fuel : Nat)
    (s : PythonInputSource (σ × List Ev)) :
    Option (Outcome Int (PythonInputSource (σ × List Ev))) :=
  match scanLoopG H fuel (List.replicate bufSize 0) (emit Ev.acquire s) with
  | none => none
  | some (r, s1) => some (r, emit Ev.release s1)

/-- Method `findAndSkipNextEOL()` with its events: the scan buffer has 4096 bytes. -/
def findAndSkipNextEOLG (H : StreamOps σ) (fuel : Nat) (s : PythonInputSource (σ × List Ev)) :
    Option (Outcome Int (PythonInputSource (σ × List Ev))) :=
  findAndSkipNextEOLWithG H 4096 fuel s

/-- The discipline "one acquisition per call": every call is made while the token is
held, and between two successive calls the token has been given up.  `depth` is the
nesting of acquisitions, `fresh` tells whether the token has been given up (depth 0)
since the last call. -/
def perCallScoped : Nat → Bool → List Ev → Bool
  | _, _, [] => true
  | depth, fresh, Ev.acquire :: t => perCallScoped (depth + 1) fresh t
  | depth, fresh, Ev.release :: t => perCallScoped (depth - 1) (fresh || decide (depth ≤ 1)) t
  | depth, fresh, Ev.call _ :: t => decide (0 < depth) && fresh && perCallScoped depth false t

/-- The run of a trace from nesting `depth`: the nesting at its end, provided that
the token stays held throughout (no release takes the nesting to 0) and every call is
made while it is held; `none` otherwise. -/
def heldFrom : Nat → List Ev → Option Nat
  | depth, [] => some depth
  | depth, Ev.acquire :: t => heldFrom (depth + 1) t
  | depth, Ev.release :: t => if depth ≤ 1 then none else heldFrom (depth - 1) t
  | depth, Ev.call _ :: t => if depth = 0 then none else heldFrom depth t

/-- The trace of a finished operation. -/
def traceOf {α : Type} : Option (Outcome α (PythonInputSource (MemStream × List Ev))) → List Ev
  | some (_, s) => s.stream.2
  | none => []

/-- A piece of a trace that, run while the token is held, keeps it held and ends at
the nesting it started from. -/
def KeepsHeld (t : List Ev) : Prop := ∀ depth, 1 ≤ depth → heldFrom depth t = some depth

/-- The state of the adapter without the trace. -/
def untrace (s : PythonInputSource (σ × List Ev)) : PythonInputSource σ :=
  { stream := s.stream.1, name := s.name, last_offset := s.last_offset }

/-- An outcome without the trace. -/
def untraceOutcome {α : Type} (o : Outcome α (PythonInputSource (σ × List Ev))) :
    Outcome α (PythonInputSource σ) :=
  (o.1, untrace o.2)

theorem blit_nil (n : Nat) (buf : List Byte) : blit [] n buf = buf := by
  simp [blit]

theorem blit_of_le (data : List Byte) (n : Nat) (buf : List Byte) (h : data.length ≤ n) :
    blit data n buf = data ++ buf.drop data.length := by
  simp [blit, List.take_of_length_le h]

theorem read_mem_eof (c : List Byte) (p : Nat) (ks : List Nat) (nm : String) (lo : Int)
    (buf : List Byte) (n : Nat) (hn : 0 < n) (hp : c.length ≤ p) :
    read memOps buf n ⟨⟨c, p, ks⟩, nm, lo⟩
      = (.ok (0, buf), ⟨⟨c, c.length, ks⟩, nm, (c.length : Int)⟩) := by
  have h1 : c.length - p = 0 := by omega
  simp [read, tell, seek, memOps, MemStream.tell, MemStream.readinto, MemStream.seek, SEEK_END,
    h1, hn, blit_nil]

theorem read_mem_zero (m : MemStream) (nm : String) (lo : Int) (buf : List Byte) :
    read memOps buf 0 ⟨m, nm, lo⟩ = (.ok (0, buf), ⟨m, nm, (m.pos : Int)⟩) := by
  simp [read, tell, memOps, MemStream.tell, MemStream.readinto, blit_nil]

theorem nextChunk_pos (n : Nat) (m : MemStream) (hn : 0 < n) (hp : m.pos < m.content.length) :
    1 ≤ m.nextChunk n ∧ m.nextChunk n ≤ n ∧ m.pos + m.nextChunk n ≤ m.content.length := by
  unfold MemStream.nextChunk
  cases m.chunks with
  | nil => simp; omega
  | cons k ks => simp; omega

theorem read_mem_data (c : List Byte) (p : Nat) (ks : List Nat) (nm : String) (lo : Int)
    (buf : List Byte) (n : Nat) (hn : 0 < n) (hp : p < c.length) :
    read memOps buf n ⟨⟨c, p, ks⟩, nm, lo⟩
      = (.ok ((MemStream.mk c p ks).nextChunk n,
            (c.drop p).take ((MemStream.mk c p ks).nextChunk n)
              ++ buf.drop ((MemStream.mk c p ks).nextChunk n)),
         ⟨⟨c, p + (MemStream.mk c p ks).nextChunk n, ks.tail⟩, nm, (p : Int)⟩) := by
  have hb := nextChunk_pos n ⟨c, p, ks⟩ hn hp
  simp only at hb
  have h1 : ¬ (min n (c.length - p) = 0) := by omega
  cases ks with
  | nil =>
    simp only [MemStream.nextChunk] at hb ⊢
    have hlen : ((c.drop p).take (min n (c.length - p))).length = min n (c.length - p) := by
      simp
    have hne : ¬ ((c.drop p).take (min n (c.length - p))).length = 0 := by omega
    simp only [read, tell, memOps, MemStream.tell, MemStream.readinto, h1, if_false, hne]
    rw [blit_of_le _ _ _ (by omega), hlen]
    simp
  | cons k ks =>
    simp only [MemStream.nextChunk] at hb ⊢
    have hlen : ((c.drop p).take (max 1 (min k (min n (c.length - p))))).length
        = max 1 (min k (min n (c.length - p))) := by
      simp; omega
    have hne : ¬ ((c.drop p).take (max 1 (min k (min n (c.length - p))))).length = 0 := by omega
    simp only [read, tell, memOps, MemStream.tell, MemStream.readinto, h1, if_false, hne]
    rw [blit_of_le _ _ _ (by omega), hlen]
    simp

/-! ## Line endings in lists and in the scan buffer -/

theorem eolIdx_le (l : List Byte) : eolIdx l ≤ l.length := by
  induction l with
  | nil => simp [eolIdx]
  | cons b bs ih => simp only [eolIdx]; split <;> simp; omega

theorem runLen_le (l : List Byte) : runLen l ≤ l.length := by
  induction l with
  | nil => simp [runLen]
  | cons b bs ih => simp only [runLen]; split <;> simp; omega

/-- Searching a list that ends in bytes free of line endings. -/
theorem find_first_of_append (xs ys : List Byte) (hys : ∀ b ∈ ys, isLineEnding b = false) :
    find_first_of (xs ++ ys) = if eolIdx xs < xs.length then some (eolIdx xs) else none := by
  induction xs with
  | nil =>
    simp only [List.nil_append, eolIdx, List.length_nil, lt_self_iff_false, if_false]
    induction ys with
    | nil => rfl
    | cons y ys ih =>
      have hy : isLineEnding y = false := hys y (List.mem_cons_self _ _)
      simp only [find_first_of, hy]
      rw [ih (fun b hb => hys b (List.mem_cons_of_mem _ hb))]
      rfl
  | cons x xs ih =>
    simp only [List.cons_append, find_first_of, eolIdx, List.append_eq]
    by_cases hx : isLineEnding x = true
    · simp [hx]
    · rw [ih]
      by_cases h : eolIdx xs < xs.length
      · simp [hx, h]
      · simp [hx, h]

theorem eolIdx_take_lt (l : List Byte) (k : Nat) (h : eolIdx (l.take k) < (l.take k).length) :
    eolIdx l = eolIdx (l.take k) := by
  induction l generalizing k with
  | nil => simp
  | cons b bs ih =>
    cases k with
    | zero => simp [eolIdx] at h
    | succ k =>
      simp only [List.take_succ_cons, eolIdx, List.length_cons] at h ⊢
      by_cases hb : isLineEnding b = true
      · simp [hb]
      · simp only [hb, if_false, Bool.false_eq_true] at h ⊢
        rw [ih k (by omega)]

theorem eolIdx_take_ge (l : List Byte) (k : Nat) (hk : k ≤ l.length)
    (h : ¬ eolIdx (l.take k) < (l.take k).length) :
    eolIdx l = k + eolIdx (l.drop k) ∧ ∀ b ∈ l.take k, isLineEnding b = false := by
  induction l generalizing k with
  | nil => simp at hk; subst hk; simp
  | cons b bs ih =>
    cases k with
    | zero => simp
    | succ k =>
      simp only [List.take_succ_cons, eolIdx, List.length_cons, List.drop_succ_cons] at h ⊢
      by_cases hb : isLineEnding b = true
      · simp [hb] at h
      · simp only [hb, if_false, Bool.false_eq_true] at h ⊢
        have hk2 : k ≤ bs.length := by simpa using hk
        obtain ⟨h1, h2⟩ := ih k hk2 (by omega)
        refine ⟨by omega, ?_⟩
        intro x hx
        rcases List.mem_cons.mp hx with rfl | hx
        · simpa using hb
        · exact h2 x hx

theorem drop_eq_getD_cons (c : List Byte) (q : Nat) (hq : q < c.length) :
    c.drop q = c.getD q 0 :: c.drop (q + 1) := by
  rw [List.drop_eq_getElem_cons hq]
  simp [List.getD_eq_getElem?_getD, List.getElem?_eq_getElem hq]

theorem runLen_drop_of_eol (c : List Byte) (q : Nat) (hq : q < c.length)
    (h : isLineEnding (c.getD q 0) = true) :
    runLen (c.drop q) = runLen (c.drop (q + 1)) + 1 := by
  rw [drop_eq_getD_cons c q hq]
  simp only [runLen, h, if_true, if_false, Bool.false_eq_true]

theorem runLen_drop_of_not_eol (c : List Byte) (q : Nat) (hq : q < c.length)
    (h : isLineEnding (c.getD q 0) = false) :
    runLen (c.drop q) = 0 := by
  rw [drop_eq_getD_cons c q hq]
  simp only [runLen, h, if_true, if_false, Bool.false_eq_true]

theorem nextChunk_one (c : List Byte) (p : Nat) (ks : List Nat) (hp : p < c.length) :
    (MemStream.mk c p ks).nextChunk 1 = 1 := by
  have := nextChunk_pos 1 ⟨c, p, ks⟩ (by omega) hp
  omega

/-- The inner loop on an in-memory stream: it stops behind the run of line endings. -/
theorem skipLoop_mem (c : List Byte) (nm : String) :
    ∀ (fuel q : Nat) (ch : List Byte) (ks : List Nat) (lo : Int),
      q ≤ c.length → c.length - q + 1 ≤ fuel →
      ∃ ks2 lo2, skipLoop memOps fuel ch ⟨⟨c, q, ks⟩, nm, lo⟩
        = some (.ok (), ⟨⟨c, q + runLen (c.drop q), ks2⟩, nm, lo2⟩) := by
  intro fuel
  induction fuel with
  | zero => intro q ch ks lo _ h; omega
  | succ f ih =>
    intro q ch ks lo hq hf
    rcases Nat.lt_or_ge q c.length with hlt | hge
    · have h1 := nextChunk_one c q ks hlt
      simp only [skipLoop, read_mem_data c q ks nm lo ch 1 (by omega) hlt, h1]
      have hd : (c.drop q).take 1 = [c.getD q 0] := by
        rw [drop_eq_getD_cons c q hlt]
        simp
      simp only [hd, List.singleton_append, List.headD_cons, one_ne_zero, if_false]
      by_cases hb : isLineEnding (c.getD q 0) = true
      · have hb2 : (c.getD q 0 == CR || c.getD q 0 == LF) = true := hb
        simp only [hb2, Bool.not_true, Bool.false_eq_true, if_false]
        obtain ⟨ks2, lo2, h2⟩ := ih (q + 1) (c.getD q 0 :: ch.drop 1) ks.tail (q : Int)
          (by omega) (by omega)
        refine ⟨ks2, lo2, ?_⟩
        rw [h2, runLen_drop_of_eol c q hlt hb]
        have : q + 1 + runLen (List.drop (q + 1) c) = q + (runLen (List.drop (q + 1) c) + 1) := by
          omega
        rw [this]
      · have hb1 : isLineEnding (c.getD q 0) = false := by simpa using hb
        have hb2 : (c.getD q 0 == CR || c.getD q 0 == LF) = false := hb1
        simp only [hb2, Bool.not_false, if_true]
        refine ⟨ks.tail, (q : Int), ?_⟩
        rw [runLen_drop_of_not_eol c q hlt hb1]
        simp [unreadCh, seek, memOps, MemStream.seek, SEEK_CUR]
    · have hqe : q = c.length := by omega
      subst hqe
      refine ⟨ks, (c.length : Int), ?_⟩
      simp [skipLoop, read_mem_eof c c.length ks nm lo ch 1 (by omega) (le_refl _), runLen]

/-! ## The two loops on the in-memory stream -/

theorem tell_mem (m : MemStream) (nm : String) (lo : Int) :
    tell memOps ⟨m, nm, lo⟩ = (.ok (m.pos : Int), ⟨m, nm, lo⟩) := rfl

theorem seek_set_mem (c : List Byte) (p : Nat) (ks : List Nat) (nm : String) (lo : Int)
    (q : Nat) :
    seek memOps ((q : Int) + 1) SEEK_SET ⟨⟨c, p, ks⟩, nm, lo⟩
      = (.ok (), ⟨⟨c, q + 1, ks⟩, nm, lo⟩) := by
  have h1 : ¬ ((q : Int) + 1 < 0) := by omega
  have h2 : ((q : Int) + 1).toNat = q + 1 := by omega
  simp [seek, memOps, MemStream.seek, SEEK_SET, h1, h2]

theorem eolIdx_spec (l : List Byte) (h : eolIdx l < l.length) :
    isLineEnding (l.getD (eolIdx l) 0) = true := by
  induction l with
  | nil => simp at h
  | cons b bs ih =>
    simp only [eolIdx, List.length_cons] at h ⊢
    by_cases hb : isLineEnding b = true
    · simp only [hb, if_true, List.getD_cons_zero]
    · simp only [hb, if_false, Bool.false_eq_true, List.getD_cons_succ] at h ⊢
      exact ih (by omega)

theorem eolIdx_min (l : List Byte) (j : Nat) (h : j < eolIdx l) :
    isLineEnding (l.getD j 0) = false := by
  induction l generalizing j with
  | nil => simp [eolIdx] at h
  | cons b bs ih =>
    simp only [eolIdx] at h
    by_cases hb : isLineEnding b = true
    · simp [hb] at h
    · simp only [hb, if_false, Bool.false_eq_true] at h
      cases j with
      | zero => simpa using hb
      | succ j => simp only [List.getD_cons_succ]; exact ih j (by omega)

theorem getD_drop (c : List Byte) (p i : Nat) : (c.drop p).getD i 0 = c.getD (p + i) 0 := by
  simp [List.getD_eq_getElem?_getD, List.getElem?_drop]

/-- The outer loop on an in-memory stream, from a scan buffer free of line endings. -/
theorem scanLoop_mem (c : List Byte) (nm : String) :
    ∀ (fuel p : Nat) (buf : List Byte) (ks : List Nat) (lo : Int),
      p ≤ c.length → 0 < buf.length → (∀ b ∈ buf, isLineEnding b = false) →
      c.length - p + 1 ≤ fuel →
      ∃ ks2 lo2, scanLoop memOps fuel buf ⟨⟨c, p, ks⟩, nm, lo⟩
        = some (.ok ((p + eolIdx (c.drop p) : Nat) : Int),
            ⟨⟨c, p + eolIdx (c.drop p) + runLen (c.drop (p + eolIdx (c.drop p))), ks2⟩,
              nm, lo2⟩) := by
  intro fuel
  induction fuel with
  | zero => intro p buf ks lo _ _ _ h; omega
  | succ f ih =>
    intro p buf ks lo hp hbuf hfree hf
    rcases Nat.lt_or_ge p c.length with hlt | hge
    · obtain ⟨hk1, hk2, hk3⟩ := nextChunk_pos buf.length ⟨c, p, ks⟩ hbuf hlt
      simp only at hk3
      generalize hk : (MemStream.mk c p ks).nextChunk buf.length = k at hk1 hk2 hk3
      have hlen : ((c.drop p).take k).length = k := by simp; omega
      have hfree2 : ∀ b ∈ buf.drop k, isLineEnding b = false :=
        fun b hb => hfree b (List.mem_of_mem_drop hb)
      have hk0 : ¬ k = 0 := by omega
      simp only [scanLoop, tell_mem, read_mem_data c p ks nm lo buf buf.length hbuf hlt, hk,
        hk0, if_false, find_first_of_append _ _ hfree2]
      by_cases hfound : eolIdx ((c.drop p).take k) < ((c.drop p).take k).length
      · have he := eolIdx_take_lt (c.drop p) k hfound
        have hr : eolIdx (c.drop p) < k := by omega
        have hcast2 : ((p : Int) + ((eolIdx ((c.drop p).take k) : Nat) : Int))
            = ((p + eolIdx (c.drop p) : Nat) : Int) := by
          rw [← he]; push_cast; ring
        simp only [hfound, if_true, hcast2, seek_set_mem]
        obtain ⟨ks2, lo2, h2⟩ := skipLoop_mem c nm f (p + eolIdx (c.drop p) + 1) [0] ks.tail
          (p : Int) (by omega) (by omega)
        refine ⟨ks2, lo2, ?_⟩
        rw [h2]
        have hdl : eolIdx (c.drop p) < (c.drop p).length := by simp; omega
        have hb : isLineEnding (c.getD (p + eolIdx (c.drop p)) 0) = true := by
          rw [← getD_drop]; exact eolIdx_spec _ hdl
        rw [runLen_drop_of_eol c (p + eolIdx (c.drop p)) (by omega) hb]
        simp only [Nat.add_assoc, Nat.add_comm 1]
      · simp only [hfound, if_false]
        obtain ⟨he, hdata⟩ := eolIdx_take_ge (c.drop p) k (by simp; omega) hfound
        have hfree3 : ∀ b ∈ (c.drop p).take k ++ buf.drop k, isLineEnding b = false := by
          intro b hb
          rcases List.mem_append.mp hb with hb | hb
          · exact hdata b hb
          · exact hfree2 b hb
        have hlen2 : 0 < ((c.drop p).take k ++ buf.drop k).length := by
          rw [List.length_append, hlen]; omega
        obtain ⟨ks2, lo2, h2⟩ := ih (p + k) _ ks.tail (p : Int) hk3 hlen2 hfree3 (by omega)
        refine ⟨ks2, lo2, ?_⟩
        rw [List.drop_drop] at he
        have e : p + eolIdx (c.drop p) = p + k + eolIdx (c.drop (p + k)) := by
          rw [he]; simp only [Nat.add_comm k p, Nat.add_assoc]
        rw [h2, e]
    · have hpe : p = c.length := by omega
      subst hpe
      refine ⟨ks, (c.length : Int), ?_⟩
      simp [scanLoop, tell_mem, read_mem_eof c c.length ks nm lo buf buf.length hbuf (le_refl _),
        eolIdx, runLen]

theorem replicate_free (w : Nat) : ∀ b ∈ List.replicate w (0 : Byte), isLineEnding b = false := by
  intro b hb
  rw [List.eq_of_mem_replicate hb]
  rfl

/-- The whole call on an in-memory stream, for any positive size of the scan buffer. -/
theorem findAndSkipNextEOLWith_mem (c : List Byte) (p w fuel : Nat) (ks : List Nat) (lo : Int)
    (hp : p ≤ c.length) (hw : 0 < w) (hfuel : c.length - p + 1 ≤ fuel) :
    ∃ s, findAndSkipNextEOLWith memOps w fuel (onMem c p ks lo)
        = some (.ok ((p + eolIdx (c.drop p) : Nat) : Int), s)
      ∧ s.stream.content = c
      ∧ s.stream.pos = p + eolIdx (c.drop p) + runLen (c.drop (p + eolIdx (c.drop p))) := by
  obtain ⟨ks2, lo2, h⟩ := scanLoop_mem c "<_io.BytesIO object>" fuel p (List.replicate w 0) ks lo
    hp (by simpa using hw) (replicate_free w) hfuel
  exact ⟨_, h, rfl, rfl⟩

/-- The whole call from a position at or past the end of an in-memory stream. -/
theorem findAndSkipNextEOLWith_mem_past (c : List Byte) (p w fuel : Nat) (ks : List Nat)
    (lo : Int) (hp : c.length ≤ p) (hw : 0 < w) (hfuel : 1 ≤ fuel) :
    findAndSkipNextEOLWith memOps w fuel (onMem c p ks lo)
      = some (.ok (c.length : Int), onMem c c.length ks (c.length : Int)) := by
  obtain ⟨f, rfl⟩ : ∃ f, fuel = f + 1 := ⟨fuel - 1, by omega⟩
  have hb : 0 < (List.replicate w (0 : Byte)).length := by simpa using hw
  simp only [findAndSkipNextEOLWith, onMem, scanLoop, tell_mem,
    read_mem_eof c p ks _ lo _ _ hb hp, if_true]

theorem lineEndingAt_lt (c : List Byte) (i : Nat) (h : lineEndingAt c i = true) :
    i < c.length := by
  by_contra hlt
  have : c.getD i 0 = 0 := by
    simp [List.getD_eq_getElem?_getD, List.getElem?_eq_none (by omega : c.length ≤ i)]
  rw [lineEndingAt, this] at h
  exact absurd h (by decide)

/-- What `p + eolIdx (c.drop p)` is, in terms of the content's indexes. -/
theorem firstEOL_props (c : List Byte) (p : Nat) (hp : p ≤ c.length) :
    p + eolIdx (c.drop p) ≤ c.length
    ∧ (p + eolIdx (c.drop p) < c.length → lineEndingAt c (p + eolIdx (c.drop p)) = true)
    ∧ ∀ j, p ≤ j → j < p + eolIdx (c.drop p) → lineEndingAt c j = false := by
  have hle := eolIdx_le (c.drop p)
  rw [List.length_drop] at hle
  refine ⟨by omega, ?_, ?_⟩
  · intro h
    rw [lineEndingAt, ← getD_drop]
    exact eolIdx_spec _ (by rw [List.length_drop]; omega)
  · intro j hj1 hj2
    have := eolIdx_min (c.drop p) (j - p) (by omega)
    rw [getD_drop] at this
    rw [lineEndingAt]
    rwa [show p + (j - p) = j by omega] at this

theorem runLen_spec (l : List Byte) :
    (∀ j, j < runLen l → isLineEnding (l.getD j 0) = true)
    ∧ (runLen l < l.length → isLineEnding (l.getD (runLen l) 0) = false) := by
  induction l with
  | nil => simp [runLen]
  | cons b bs ih =>
    simp only [runLen]
    by_cases hb : isLineEnding b = true
    · simp only [hb, if_true, List.length_cons, List.getD_cons_succ]
      refine ⟨?_, fun h => ih.2 (by omega)⟩
      intro j hj
      cases j with
      | zero => simpa using hb
      | succ j => simp only [List.getD_cons_succ]; exact ih.1 j (by omega)
    · simp only [hb, if_false, Bool.false_eq_true, List.getD_cons_zero]
      refine ⟨fun j hj => by omega, fun _ => by simp [hb]⟩

/-- What `r + runLen (c.drop r)` is, in terms of the content's indexes. -/
theorem runEnd_props (c : List Byte) (r : Nat) (hr : r ≤ c.length) :
    r + runLen (c.drop r) ≤ c.length
    ∧ (∀ j, r ≤ j → j < r + runLen (c.drop r) → lineEndingAt c j = true)
    ∧ (r + runLen (c.drop r) < c.length → lineEndingAt c (r + runLen (c.drop r)) = false) := by
  have hle := runLen_le (c.drop r)
  rw [List.length_drop] at hle
  obtain ⟨h1, h2⟩ := runLen_spec (c.drop r)
  refine ⟨by omega, ?_, ?_⟩
  · intro j hj1 hj2
    have := h1 (j - r) (by omega)
    rw [getD_drop] at this
    rw [lineEndingAt]
    rwa [show r + (j - r) = j by omega] at this
  · intro h
    have := h2 (by rw [List.length_drop]; omega)
    rw [getD_drop] at this
    exact this

theorem lineEndingAt_of_le (c : List Byte) (j : Nat) (h : c.length ≤ j) :
    lineEndingAt c j = false := by
  cases hb : lineEndingAt c j with
  | false => rfl
  | true => exact absurd (lineEndingAt_lt c j hb) (by omega)

/-! ## The loops on both in-memory stream objects, with `last_offset` -/

theorem read_ops_data (H : StreamOps MemStream) (hH : H = memOps ∨ H = memOpsNone)
    (c : List Byte) (p : Nat) (ks : List Nat) (nm : String) (lo : Int)
    (buf : List Byte) (n : Nat) (hn : 0 < n) (hp : p < c.length) :
    read H buf n ⟨⟨c, p, ks⟩, nm, lo⟩
      = (.ok ((MemStream.mk c p ks).nextChunk n,
            (c.drop p).take ((MemStream.mk c p ks).nextChunk n)
              ++ buf.drop ((MemStream.mk c p ks).nextChunk n)),
         ⟨⟨c, p + (MemStream.mk c p ks).nextChunk n, ks.tail⟩, nm, (p : Int)⟩) := by
  rcases hH with rfl | rfl
  · exact read_mem_data c p ks nm lo buf n hn hp
  · rw [← read_mem_data c p ks nm lo buf n hn hp]
    have hnot : ¬ c.length ≤ p := by omega
    simp [read, tell, seek, memOps, memOpsNone, MemStream.tell, hnot]

theorem read_ops_end (H : StreamOps MemStream) (hH : H = memOps ∨ H = memOpsNone)
    (c : List Byte) (ks : List Nat) (nm : String) (lo : Int)
    (buf : List Byte) (n : Nat) (hn : 0 < n) :
    read H buf n ⟨⟨c, c.length, ks⟩, nm, lo⟩
      = (.ok (0, buf), ⟨⟨c, c.length, ks⟩, nm, (c.length : Int)⟩) := by
  rcases hH with rfl | rfl
  · exact read_mem_eof c c.length ks nm lo buf n hn (le_refl _)
  · simp [read, tell, memOps, memOpsNone, MemStream.tell]

theorem tell_ops (H : StreamOps MemStream) (hH : H = memOps ∨ H = memOpsNone)
    (m : MemStream) (nm : String) (lo : Int) :
    tell H ⟨m, nm, lo⟩ = (.ok (m.pos : Int), ⟨m, nm, lo⟩) := by
  rcases hH with rfl | rfl <;> rfl

theorem seek_set_ops (H : StreamOps MemStream) (hH : H = memOps ∨ H = memOpsNone)
    (c : List Byte) (p : Nat) (ks : List Nat) (nm : String) (lo : Int) (q : Nat) :
    seek H ((q : Int) + 1) SEEK_SET ⟨⟨c, p, ks⟩, nm, lo⟩
      = (.ok (), ⟨⟨c, q + 1, ks⟩, nm, lo⟩) := by
  rcases hH with rfl | rfl
  · exact seek_set_mem c p ks nm lo q
  · exact seek_set_mem c p ks nm lo q

theorem unreadCh_ops (H : StreamOps MemStream) (hH : H = memOps ∨ H = memOpsNone)
    (c : List Byte) (p : Nat) (ks : List Nat) (nm : String) (lo : Int) (b : Byte) :
    unreadCh H b ⟨⟨c, p + 1, ks⟩, nm, lo⟩ = (.ok (), ⟨⟨c, p, ks⟩, nm, lo⟩) := by
  rcases hH with rfl | rfl <;>
    simp [unreadCh, seek, memOps, memOpsNone, MemStream.seek, SEEK_CUR]

/-- The inner loop on either in-memory stream object: it stops behind the run of
line endings, with `last_offset` at the final position. -/
theorem skipLoop_ops (H : StreamOps MemStream) (hH : H = memOps ∨ H = memOpsNone)
    (c : List Byte) (nm : String) :
    ∀ (fuel q : Nat) (ch : List Byte) (ks : List Nat) (lo : Int),
      q ≤ c.length → c.length - q + 1 ≤ fuel →
      ∃ ks2, skipLoop H fuel ch ⟨⟨c, q, ks⟩, nm, lo⟩
        = some (.ok (), ⟨⟨c, q + runLen (c.drop q), ks2⟩, nm,
            ((q + runLen (c.drop q) : Nat) : Int)⟩) := by
  intro fuel
  induction fuel with
  | zero => intro q ch ks lo _ h; omega
  | succ f ih =>
    intro q ch ks lo hq hf
    rcases Nat.lt_or_ge q c.length with hlt | hge
    · have h1 := nextChunk_one c q ks hlt
      simp only [skipLoop, read_ops_data H hH c q ks nm lo ch 1 (by omega) hlt, h1]
      have hd : (c.drop q).take 1 = [c.getD q 0] := by
        rw [drop_eq_getD_cons c q hlt]
        simp
      simp only [hd, List.singleton_append, List.headD_cons, one_ne_zero, if_false]
      by_cases hb : isLineEnding (c.getD q 0) = true
      · have hb2 : (c.getD q 0 == CR || c.getD q 0 == LF) = true := hb
        simp only [hb2, Bool.not_true, Bool.false_eq_true, if_false]
        obtain ⟨ks2, h2⟩ := ih (q + 1) (c.getD q 0 :: ch.drop 1) ks.tail (q : Int)
          (by omega) (by omega)
        refine ⟨ks2, ?_⟩
        rw [h2, runLen_drop_of_eol c q hlt hb]
        have : q + 1 + runLen (List.drop (q + 1) c) = q + (runLen (List.drop (q + 1) c) + 1) := by
          omega
        rw [this]
      · have hb1 : isLineEnding (c.getD q 0) = false := by simpa using hb
        have hb2 : (c.getD q 0 == CR || c.getD q 0 == LF) = false := hb1
        simp only [hb2, Bool.not_false, if_true]
        refine ⟨ks.tail, ?_⟩
        rw [runLen_drop_of_not_eol c q hlt hb1, unreadCh_ops H hH]
        rfl
    · have hqe : q = c.length := by omega
      subst hqe
      refine ⟨ks, ?_⟩
      simp [skipLoop, read_ops_end H hH c ks nm lo ch 1 (by omega), runLen]

/-- The outer loop on either in-memory stream object, from a scan buffer free of
line endings: the offset returned, the final position, and `last_offset`. -/
theorem scanLoop_ops (H : StreamOps MemStream) (hH : H = memOps ∨ H = memOpsNone)
    (c : List Byte) (nm : String) :
    ∀ (fuel p : Nat) (buf : List Byte) (ks : List Nat) (lo : Int),
      p ≤ c.length → 0 < buf.length → (∀ b ∈ buf, isLineEnding b = false) →
      c.length - p + 1 ≤ fuel →
      ∃ ks2, scanLoop H fuel buf ⟨⟨c, p, ks⟩, nm, lo⟩
        = some (.ok ((p + eolIdx (c.drop p) : Nat) : Int),
            ⟨⟨c, p + eolIdx (c.drop p) + runLen (c.drop (p + eolIdx (c.drop p))), ks2⟩,
              nm,
              ((p + eolIdx (c.drop p) + runLen (c.drop (p + eolIdx (c.drop p))) : Nat) : Int)⟩) := by
  intro fuel
  induction fuel with
  | zero => intro p buf ks lo _ _ _ h; omega
  | succ f ih =>
    intro p buf ks lo hp hbuf hfree hf
    rcases Nat.lt_or_ge p c.length with hlt | hge
    · obtain ⟨hk1, hk2, hk3⟩ := nextChunk_pos buf.length ⟨c, p, ks⟩ hbuf hlt
      simp only at hk3
      generalize hk : (MemStream.mk c p ks).nextChunk buf.length = k at hk1 hk2 hk3
      have hlen : ((c.drop p).take k).length = k := by simp; omega
      have hfree2 : ∀ b ∈ buf.drop k, isLineEnding b = false :=
        fun b hb => hfree b (List.mem_of_mem_drop hb)
      have hk0 : ¬ k = 0 := by omega
      simp only [scanLoop, tell_ops H hH, read_ops_data H hH c p ks nm lo buf buf.length hbuf hlt,
        hk, hk0, if_false, find_first_of_append _ _ hfree2]
      by_cases hfound : eolIdx ((c.drop p).take k) < ((c.drop p).take k).length
      · have he := eolIdx_take_lt (c.drop p) k hfound
        have hr : eolIdx (c.drop p) < k := by omega
        have hcast2 : ((p : Int) + ((eolIdx ((c.drop p).take k) : Nat) : Int))
            = ((p + eolIdx (c.drop p) : Nat) : Int) := by
          rw [← he]; push_cast; ring
        simp only [hfound, if_true, hcast2, seek_set_ops H hH]
        obtain ⟨ks2, h2⟩ := skipLoop_ops H hH c nm f (p + eolIdx (c.drop p) + 1) [0] ks.tail
          (p : Int) (by omega) (by omega)
        refine ⟨ks2, ?_⟩
        rw [h2]
        have hdl : eolIdx (c.drop p) < (c.drop p).length := by simp; omega
        have hb : isLineEnding (c.getD (p + eolIdx (c.drop p)) 0) = true := by
          rw [← getD_drop]; exact eolIdx_spec _ hdl
        rw [runLen_drop_of_eol c (p + eolIdx (c.drop p)) (by omega) hb]
        simp only [Nat.add_assoc, Nat.add_comm 1]
      · simp only [hfound, if_false]
        obtain ⟨he, hdata⟩ := eolIdx_take_ge (c.drop p) k (by simp; omega) hfound
        have hfree3 : ∀ b ∈ (c.drop p).take k ++ buf.drop k, isLineEnding b = false := by
          intro b hb
          rcases List.mem_append.mp hb with hb | hb
          · exact hdata b hb
          · exact hfree2 b hb
        have hlen2 : 0 < ((c.drop p).take k ++ buf.drop k).length := by
          rw [List.length_append, hlen]; omega
        obtain ⟨ks2, h2⟩ := ih (p + k) _ ks.tail (p : Int) hk3 hlen2 hfree3 (by omega)
        refine ⟨ks2, ?_⟩
        rw [List.drop_drop] at he
        have e : p + eolIdx (c.drop p) = p + k + eolIdx (c.drop (p + k)) := by
          rw [he]; simp only [Nat.add_comm k p, Nat.add_assoc]
        rw [h2, e]
    · have hpe : p = c.length := by omega
      subst hpe
      refine ⟨ks, ?_⟩
      simp [scanLoop, tell_ops H hH, read_ops_end H hH c ks nm lo buf buf.length hbuf,
        eolIdx, runLen]

/-- The whole call on either in-memory stream object, as one equation. -/
theorem findAndSkipNextEOLWith_ops (H : StreamOps MemStream) (hH : H = memOps ∨ H = memOpsNone)
    (c : List Byte) (p w fuel : Nat) (ks : List Nat) (lo : Int)
    (hp : p ≤ c.length) (hw : 0 < w) (hfuel : c.length - p + 1 ≤ fuel) :
    ∃ ks2, findAndSkipNextEOLWith H w fuel (onMem c p ks lo)
      = some (.ok ((p + eolIdx (c.drop p) : Nat) : Int),
          onMem c (p + eolIdx (c.drop p) + runLen (c.drop (p + eolIdx (c.drop p)))) ks2
            ((p + eolIdx (c.drop p) + runLen (c.drop (p + eolIdx (c.drop p))) : Nat) : Int)) :=
  scanLoop_ops H hH c "<_io.BytesIO object>" fuel p (List.replicate w 0) ks lo
    hp (by simpa using hw) (replicate_free w) hfuel

theorem find_first_of_none (l : List Byte) (h : find_first_of l = none) :
    ∀ b ∈ l, isLineEnding b = false := by
  induction l with
  | nil => intro b hb; simp at hb
  | cons x xs ih =>
    simp only [find_first_of] at h
    by_cases hx : isLineEnding x = true
    · simp [hx] at h
    · simp only [hx, if_false, Bool.false_eq_true, Option.map_eq_none'] at h
      intro b hb
      rcases List.mem_cons.mp hb with rfl | hb
      · simpa using hx
      · exact ih h b hb

/-- The outer loop goes from one fill state to the next. -/
theorem scanLoop_next (H : StreamOps σ) (fuel : Nat) (buf : List Byte)
    (s : PythonInputSource σ) (cur_offset : Int) (s1 : PythonInputSource σ) (len : Nat)
    (buf1 : List Byte) (s2 : PythonInputSource σ)
    (h1 : tell H s = (.ok cur_offset, s1))
    (h2 : read H buf buf.length s1 = (.ok (len, buf1), s2))
    (h3 : len ≠ 0) (h4 : find_first_of buf1 = none) :
    scanLoop H (fuel + 1) buf s = scanLoop H fuel buf1 s2 := by
  simp [scanLoop, h1, h2, h3, h4]

/-- What a fill of the scan buffer does on the in-memory stream. -/
theorem read_mem_fill (c : List Byte) (p : Nat) (ks : List Nat) (nm : String) (lo : Int)
    (buf : List Byte) (len : Nat) (buf1 : List Byte) (s2 : PythonInputSource MemStream)
    (h : read memOps buf buf.length ⟨⟨c, p, ks⟩, nm, lo⟩ = (.ok (len, buf1), s2))
    (hlen : len ≠ 0) :
    p < c.length ∧ 1 ≤ len ∧ len ≤ buf.length ∧ p + len ≤ c.length
    ∧ buf1 = (c.drop p).take len ++ buf.drop len
    ∧ s2.stream.content = c := by
  rcases Nat.eq_zero_or_pos buf.length with h0 | hpos
  · rw [h0, read_mem_zero] at h
    simp only [Prod.mk.injEq, Except.ok.injEq] at h
    omega
  · rcases Nat.lt_or_ge p c.length with hlt | hge
    · rw [read_mem_data c p ks nm lo buf buf.length hpos hlt] at h
      obtain ⟨hk1, hk2, hk3⟩ := nextChunk_pos buf.length ⟨c, p, ks⟩ hpos hlt
      simp only [Prod.mk.injEq, Except.ok.injEq] at h
      obtain ⟨⟨h1, h2⟩, h3⟩ := h
      subst h1 h2 h3
      exact ⟨hlt, hk1, hk2, hk3, rfl, rfl⟩
    · rw [read_mem_eof c p ks nm lo buf buf.length hpos hge] at h
      simp only [Prod.mk.injEq, Except.ok.injEq] at h
      omega

/-- The whole call from a position past the end, on the stream object that answers
`None` at the end of the data. -/
theorem findAndSkipNextEOLWith_none_past (c : List Byte) (p w fuel : Nat) (ks : List Nat)
    (lo : Int) (hp : c.length ≤ p) (hfuel : 1 ≤ fuel) :
    findAndSkipNextEOLWith memOpsNone w fuel (onMem c p ks lo)
      = some (.ok (p : Int), onMem c p ks (p : Int)) := by
  obtain ⟨f, rfl⟩ : ∃ f, fuel = f + 1 := ⟨fuel - 1, by omega⟩
  simp [findAndSkipNextEOLWith, onMem, scanLoop, tell, read, memOpsNone, memOps,
    MemStream.tell, hp]

/-! ## Runs of line endings and repeated calls -/

theorem filter_range'_nil (f : Nat → Bool) (a n : Nat)
    (h : ∀ i, a ≤ i → i < a + n → f i = false) : (List.range' a n).filter f = [] := by
  rw [List.filter_eq_nil_iff]
  intro i hi
  rw [List.mem_range'_1] at hi
  rw [h i hi.1 hi.2]
  simp

theorem isRunStart_of_not_eol (c : List Byte) (i : Nat) (h : lineEndingAt c i = false) :
    isRunStart c i = false := by
  simp [isRunStart, h]

theorem isRunStart_of_prev_eol (c : List Byte) (i : Nat) (hi : 0 < i)
    (h : lineEndingAt c (i - 1) = true) : isRunStart c i = false := by
  have h0 : (i == 0) = false := by simp; omega
  simp [isRunStart, h, h0]

/-- The run starts from a position that is 0 or holds no line ending: none when no
line ending follows, and otherwise the first line ending, followed by the run starts
from the end of its run. -/
theorem runStartsFrom_step (c : List Byte) (q : Nat) (hq : q ≤ c.length)
    (hI : q = 0 ∨ lineEndingAt c q = false) :
    (q + eolIdx (c.drop q) = c.length → runStartsFrom c q = [])
    ∧ (q + eolIdx (c.drop q) < c.length →
        runStartsFrom c q = (q + eolIdx (c.drop q))
          :: runStartsFrom c (q + eolIdx (c.drop q) + runLen (c.drop (q + eolIdx (c.drop q))))) := by
  obtain ⟨h1, h2, h3⟩ := firstEOL_props c q hq
  generalize hr : q + eolIdx (c.drop q) = r at h1 h2 h3
  have hqr : q ≤ r := by omega
  have hpre : (List.range' q (r - q)).filter (isRunStart c) = [] :=
    filter_range'_nil _ _ _ (fun i hi1 hi2 => isRunStart_of_not_eol c i (h3 i hi1 (by omega)))
  constructor
  · intro hL
    subst hL
    exact hpre
  · intro hlt
    obtain ⟨g1, g2, g3⟩ := runEnd_props c r h1
    have hrun := runLen_drop_of_eol c r hlt (h2 hlt)
    generalize hq2 : r + runLen (c.drop r) = q2 at g1 g2 g3
    have hsplit : List.range' q (c.length - q)
        = List.range' q (r - q) ++ (r :: (List.range' (r + 1) (q2 - (r + 1))
            ++ List.range' q2 (c.length - q2))) := by
      have e1 : List.range' (r + 1) (q2 - (r + 1)) ++ List.range' q2 (c.length - q2)
          = List.range' (r + 1) (c.length - (r + 1)) := by
        have := List.range'_append_1 (r + 1) (q2 - (r + 1)) (c.length - q2)
        rw [show r + 1 + (q2 - (r + 1)) = q2 by omega,
          show c.length - q2 + (q2 - (r + 1)) = c.length - (r + 1) by omega] at this
        exact this
      have e2 : r :: List.range' (r + 1) (c.length - (r + 1)) = List.range' r (c.length - r) := by
        rw [show c.length - r = (c.length - (r + 1)) + 1 by omega, List.range'_succ]
      have e3 := List.range'_append_1 q (r - q) (c.length - r)
      rw [show q + (r - q) = r by omega,
        show c.length - r + (r - q) = c.length - q by omega] at e3
      rw [e1, e2, e3]
    have hmid : (List.range' (r + 1) (q2 - (r + 1))).filter (isRunStart c) = [] :=
      filter_range'_nil _ _ _ (fun i hi1 hi2 =>
        isRunStart_of_prev_eol c i (by omega) (g2 (i - 1) (by omega) (by omega)))
    have hstart : isRunStart c r = true := by
      rcases Nat.eq_zero_or_pos r with h0 | hpos
      · subst h0
        simp [isRunStart, h2 hlt]
      · have hprev : lineEndingAt c (r - 1) = false := by
          rcases Nat.lt_or_ge q r with hqlt | hqge
          · exact h3 (r - 1) (by omega) (by omega)
          · have hqe : q = r := by omega
            rcases hI with hI | hI
            · omega
            · rw [hqe, h2 hlt] at hI
              exact absurd hI (by decide)
        simp [isRunStart, h2 hlt, hprev]
    rw [runStartsFrom, hsplit, List.filter_append, hpre, List.nil_append, List.filter_cons,
      hstart, if_pos rfl, List.filter_append, hmid, List.nil_append]
    rfl

theorem answers_cons (L : Int) (n : Nat) (x : Int) (xs : List Int) :
    answers L (n + 1) (x :: xs) = x :: answers L n xs := rfl

theorem answers_nil (L : Int) (n : Nat) : answers L (n + 1) [] = L :: answers L n [] := rfl

/-- Repeated calls from a position that is 0 or holds no line ending. -/
theorem repeatCalls_mem (c : List Byte) (fuel : Nat) (hfuel : c.length + 1 ≤ fuel) :
    ∀ (n q : Nat) (ks : List Nat) (lo : Int), q ≤ c.length →
      (q = 0 ∨ lineEndingAt c q = false) →
      ∃ (qf : Nat) (ks2 : List Nat) (lo2 : Int),
        repeatCalls memOps fuel n (onMem c q ks lo)
          = some (answers (c.length : Int) n ((runStartsFrom c q).map Int.ofNat),
              onMem c qf ks2 lo2)
        ∧ (((runStartsFrom c q).length < n ∨ q = c.length) → qf = c.length) := by
  intro n
  induction n with
  | zero =>
    intro q ks lo hq hI
    refine ⟨q, ks, lo, rfl, ?_⟩
    intro h
    rcases h with h | h
    · omega
    · exact h
  | succ n ih =>
    intro q ks lo hq hI
    obtain ⟨ks1, h1⟩ := findAndSkipNextEOLWith_ops memOps (Or.inl rfl) c q 4096 fuel ks lo hq
      (by omega) (by omega)
    obtain ⟨e1, e2, -⟩ := firstEOL_props c q hq
    obtain ⟨g1, -, g3⟩ := runEnd_props c (q + eolIdx (c.drop q)) e1
    obtain ⟨hA, hB⟩ := runStartsFrom_step c q hq hI
    have hI2 : q + eolIdx (c.drop q) + runLen (c.drop (q + eolIdx (c.drop q))) = 0
        ∨ lineEndingAt c (q + eolIdx (c.drop q) + runLen (c.drop (q + eolIdx (c.drop q))))
            = false := by
      right
      rcases Nat.lt_or_ge (q + eolIdx (c.drop q) + runLen (c.drop (q + eolIdx (c.drop q))))
        c.length with h | h
      · exact g3 h
      · exact lineEndingAt_of_le c _ h
    obtain ⟨qf, ks2, lo2, h2, h3⟩ := ih _ ks1
      ((q + eolIdx (c.drop q) + runLen (c.drop (q + eolIdx (c.drop q))) : Nat) : Int) g1 hI2
    refine ⟨qf, ks2, lo2, ?_, ?_⟩
    · simp only [repeatCalls, findAndSkipNextEOL, h1, h2]
      rcases Nat.lt_or_ge (q + eolIdx (c.drop q)) c.length with hlt | hge
      · rw [hB hlt, List.map_cons, answers_cons]
        rfl
      · have heq : q + eolIdx (c.drop q) = c.length := by omega
        have hrl := runLen_le (c.drop (q + eolIdx (c.drop q)))
        rw [List.length_drop] at hrl
        have hq2 : q + eolIdx (c.drop q) + runLen (c.drop (q + eolIdx (c.drop q))) = c.length := by
          omega
        have hnil : runStartsFrom c c.length = [] := by simp [runStartsFrom]
        rw [hA heq, List.map_nil, answers_nil, hq2, hnil, heq]
        rfl
    · intro h
      apply h3
      rcases Nat.lt_or_ge (q + eolIdx (c.drop q)) c.length with hlt | hge
      · left
        rcases h with h | h
        · rw [hB hlt, List.length_cons] at h
          omega
        · omega
      · right
        have hrl := runLen_le (c.drop (q + eolIdx (c.drop q)))
        rw [List.length_drop] at hrl
        omega

theorem runStarts_pairwise (c : List Byte) : (runStarts c).Pairwise (fun a b => a < b) :=
  (List.pairwise_lt_range' 0 (c.length - 0)).filter _

theorem mem_runStarts (c : List Byte) (i : Nat) :
    i ∈ runStarts c ↔ (lineEndingAt c i = true ∧ (i = 0 ∨ lineEndingAt c (i - 1) = false)) := by
  simp only [runStarts, runStartsFrom, List.mem_filter, List.mem_range'_1, isRunStart,
    Bool.and_eq_true, Bool.or_eq_true, beq_iff_eq, Bool.not_eq_true']
  constructor
  · rintro ⟨_, h⟩
    exact h
  · intro h
    exact ⟨⟨Nat.zero_le _, by have := lineEndingAt_lt c i h.1; omega⟩, h⟩

/-! ## Propagation of failures -/

theorem propagates_retype {α β : Type} (e : PyErr) (a : List (Call × Option PyErr))
    (h : Propagates (.error e : Except PyErr α) a) : Propagates (.error e : Except PyErr β) a := h

theorem propagates_ok {α β : Type} (v : α) (w : β) (a : List (Call × Option PyErr))
    (h : Propagates (.ok v : Except PyErr α) a) : Propagates (.ok w : Except PyErr β) a := h

theorem heldFrom_append (a b : List Ev) :
    ∀ d, heldFrom d (a ++ b) = (heldFrom d a).bind (fun e => heldFrom e b) := by
  induction a with
  | nil => intro d; rfl
  | cons x xs ih =>
    intro d
    cases x with
    | acquire =>
      simp only [List.cons_append, heldFrom]
      exact ih _
    | release =>
      simp only [List.cons_append, heldFrom]
      split_ifs
      · rfl
      · exact ih _
    | call c =>
      simp only [List.cons_append, heldFrom]
      split_ifs
      · rfl
      · exact ih _

theorem keepsHeld_nil : KeepsHeld [] := fun _ _ => rfl

theorem keepsHeld_append (a b : List Ev) (ha : KeepsHeld a) (hb : KeepsHeld b) :
    KeepsHeld (a ++ b) := by
  intro d hd
  rw [heldFrom_append, ha d hd]
  exact hb d hd

theorem keepsHeld_call (c : Call) : KeepsHeld [Ev.call c] := by
  intro d hd
  have : ¬ d = 0 := by omega
  simp [heldFrom, this]

theorem keepsHeld_scope (mid : List Ev) (h : KeepsHeld mid) :
    KeepsHeld (Ev.acquire :: (mid ++ [Ev.release])) := by
  intro d hd
  have h1 : ¬ (d + 1 ≤ 1) := by omega
  simp only [heldFrom]
  rw [heldFrom_append, h (d + 1) (by omega)]
  simp [heldFrom, h1]

theorem keepsHeld_one_call (c : Call) : KeepsHeld [Ev.acquire, Ev.call c, Ev.release] :=
  keepsHeld_scope [Ev.call c] (keepsHeld_call c)

theorem tellG_trace (H : StreamOps σ) (s : PythonInputSource (σ × List Ev)) :
    (tellG H s).2.stream.2 = s.stream.2 ++ [Ev.acquire, Ev.call Call.tell, Ev.release] := by
  simp [tellG, gilScoped, emit, traced]

theorem seekG_trace (H : StreamOps σ) (offset whence : Int)
    (s : PythonInputSource (σ × List Ev)) :
    (seekG H offset whence s).2.stream.2
      = s.stream.2 ++ [Ev.acquire, Ev.call (Call.seek offset whence), Ev.release] := by
  simp [seekG, gilScoped, emit, traced]

theorem rewindG_trace (H : StreamOps σ) (s : PythonInputSource (σ × List Ev)) :
    (rewindG H s).2.stream.2
      = s.stream.2 ++ [Ev.acquire, Ev.call (Call.seek 0 0), Ev.release] := by
  simp [rewindG, gilScoped, emit, traced]

theorem unreadChG_trace (H : StreamOps σ) (b : Byte) (s : PythonInputSource (σ × List Ev)) :
    (unreadChG H b s).2.stream.2
      = s.stream.2 ++ [Ev.acquire, Ev.call (Call.seek (-1) 1), Ev.release] :=
  seekG_trace H (-1) SEEK_CUR s

/-- The trace of `read`: one scope that holds the token over all its calls. -/
theorem readG_trace (H : StreamOps σ) (buffer : List Byte) (length : Nat)
    (s : PythonInputSource (σ × List Ev)) :
    ∃ mid, (readG H buffer length s).2.stream.2
        = s.stream.2 ++ (Ev.acquire :: (mid ++ [Ev.release]))
      ∧ KeepsHeld mid := by
  have hl1 := tellG_trace H (emit Ev.acquire s)
  rcases ht : tellG H (emit Ev.acquire s) with ⟨r1, s1⟩
  rw [ht] at hl1
  simp only [emit] at hl1
  simp only [readG, gilScoped, ht]
  have k1 := keepsHeld_one_call Call.tell
  cases r1 with
  | error e =>
    refine ⟨[Ev.acquire, Ev.call Call.tell, Ev.release], ?_, k1⟩
    simp [emit, hl1]
  | ok off =>
    simp only
    have hl2 : ((traced H).readinto length s1.stream).2.2
        = s1.stream.2 ++ [Ev.call (Call.readinto length)] := rfl
    rcases hr : (traced H).readinto length s1.stream with ⟨r2, st2⟩
    rw [hr] at hl2
    simp only at hl2
    have k2 : KeepsHeld ([Ev.acquire, Ev.call Call.tell, Ev.release]
        ++ [Ev.call (Call.readinto length)]) :=
      keepsHeld_append _ _ k1 (keepsHeld_call _)
    have hlog2 : st2.2 = s.stream.2 ++ (Ev.acquire :: ([Ev.acquire, Ev.call Call.tell, Ev.release]
        ++ [Ev.call (Call.readinto length)])) := by
      rw [hl2, hl1]; simp
    cases r2 with
    | error e =>
      refine ⟨_, ?_, k2⟩
      simp [emit, hlog2]
    | ok v =>
      cases v with
      | none =>
        refine ⟨_, ?_, k2⟩
        simp [emit, hlog2]
      | some data =>
        simp only
        by_cases hd : data.length = 0
        · by_cases hn : length > 0
          · simp only [hd, hn, if_true]
            have hl3 := seekG_trace H 0 SEEK_END
              { stream := st2, name := s1.name, last_offset := off }
            rcases hs : seekG H 0 SEEK_END
              { stream := st2, name := s1.name, last_offset := off } with ⟨r3, s3⟩
            rw [hs] at hl3
            simp only at hl3
            have k3 := keepsHeld_append _ _ k2 (keepsHeld_one_call (Call.seek 0 SEEK_END))
            cases r3 with
            | error e =>
              refine ⟨_, ?_, k3⟩
              simp [emit, hl3, hlog2]
            | ok u =>
              simp only
              have hl4 := tellG_trace H s3
              rcases ht4 : tellG H s3 with ⟨r4, s4⟩
              rw [ht4] at hl4
              simp only at hl4
              have k4 := keepsHeld_append _ _ k3 (keepsHeld_one_call Call.tell)
              cases r4 with
              | error e =>
                refine ⟨_, ?_, k4⟩
                simp [emit, hl4, hl3, hlog2]
              | ok off2 =>
                refine ⟨_, ?_, k4⟩
                simp [emit, hl4, hl3, hlog2]
          · simp only [hd, hn, if_true, if_false]
            refine ⟨_, ?_, k2⟩
            simp [emit, hlog2]
        · simp only [hd, if_false]
          refine ⟨_, ?_, k2⟩
          simp [emit, hlog2]

theorem tellG_keeps (H : StreamOps σ) (s : PythonInputSource (σ × List Ev)) :
    ∃ added, (tellG H s).2.stream.2 = s.stream.2 ++ added ∧ KeepsHeld added :=
  ⟨_, tellG_trace H s, keepsHeld_one_call _⟩

theorem seekG_keeps (H : StreamOps σ) (offset whence : Int)
    (s : PythonInputSource (σ × List Ev)) :
    ∃ added, (seekG H offset whence s).2.stream.2 = s.stream.2 ++ added ∧ KeepsHeld added :=
  ⟨_, seekG_trace H offset whence s, keepsHeld_one_call _⟩

theorem readG_keeps (H : StreamOps σ) (buffer : List Byte) (length : Nat)
    (s : PythonInputSource (σ × List Ev)) :
    ∃ added, (readG H buffer length s).2.stream.2 = s.stream.2 ++ added ∧ KeepsHeld added := by
  obtain ⟨mid, h1, h2⟩ := readG_trace H buffer length s
  exact ⟨_, h1, keepsHeld_scope mid h2⟩

theorem skipLoopG_keeps (H : StreamOps σ) :
    ∀ (fuel : Nat) (ch : List Byte) (s : PythonInputSource (σ × List Ev))
      (out : Outcome Unit (PythonInputSource (σ × List Ev))),
      skipLoopG H fuel ch s = some out →
      ∃ added, out.2.stream.2 = s.stream.2 ++ added ∧ KeepsHeld added := by
  intro fuel
  induction fuel with
  | zero => intro ch s out h; simp [skipLoopG] at h
  | succ f ih =>
    intro ch s out h
    obtain ⟨a1, hl1, hp1⟩ := readG_keeps H ch 1 s
    unfold skipLoopG at h
    rcases hr : readG H ch 1 s with ⟨r, s1⟩
    rw [hr] at h hl1
    simp only at h hl1
    cases r with
    | error e =>
      simp only [Option.some.injEq] at h
      subst h
      exact ⟨a1, hl1, hp1⟩
    | ok v =>
      obtain ⟨n, ch1⟩ := v
      simp only at h
      split_ifs at h with h0 h1
      · simp only [Option.some.injEq] at h
        subst h
        exact ⟨a1, hl1, hp1⟩
      · simp only [Option.some.injEq] at h
        subst h
        obtain ⟨a2, hl2, hp2⟩ := seekG_keeps H (-1) SEEK_CUR s1
        refine ⟨a1 ++ a2, ?_, keepsHeld_append _ _ hp1 hp2⟩
        rw [unreadChG, hl2, hl1, List.append_assoc]
      · obtain ⟨a2, hl2, hp2⟩ := ih ch1 s1 out h
        refine ⟨a1 ++ a2, ?_, keepsHeld_append _ _ hp1 hp2⟩
        rw [hl2, hl1, List.append_assoc]

theorem scanLoopG_keeps (H : StreamOps σ) :
    ∀ (fuel : Nat) (buf : List Byte) (s : PythonInputSource (σ × List Ev))
      (out : Outcome Int (PythonInputSource (σ × List Ev))),
      scanLoopG H fuel buf s = some out →
      ∃ added, out.2.stream.2 = s.stream.2 ++ added ∧ KeepsHeld added := by
  intro fuel
  induction fuel with
  | zero => intro buf s out h; simp [scanLoopG] at h
  | succ f ih =>
    intro buf s out h
    obtain ⟨a1, hl1, hp1⟩ := tellG_keeps H s
    unfold scanLoopG at h
    rcases ht : tellG H s with ⟨r1, s1⟩
    rw [ht] at h hl1
    simp only at h hl1
    cases r1 with
    | error e =>
      simp only [Option.some.injEq] at h
      subst h
      exact ⟨a1, hl1, hp1⟩
    | ok cur =>
      simp only at h
      obtain ⟨a2, hl2, hp2⟩ := readG_keeps H buf buf.length s1
      rcases hr : readG H buf buf.length s1 with ⟨r2, s2⟩
      rw [hr] at h hl2
      simp only at h hl2
      have hlog2 : s2.stream.2 = s.stream.2 ++ (a1 ++ a2) := by
        rw [hl2, hl1, List.append_assoc]
      have hk2 := keepsHeld_append _ _ hp1 hp2
      cases r2 with
      | error e =>
        simp only [Option.some.injEq] at h
        subst h
        exact ⟨a1 ++ a2, hlog2, hk2⟩
      | ok v =>
        obtain ⟨len, buf1⟩ := v
        simp only at h
        split_ifs at h with h0
        · obtain ⟨a3, hl3, hp3⟩ := tellG_keeps H s2
          rcases ht3 : tellG H s2 with ⟨r3, s3⟩
          rw [ht3] at h hl3
          simp only at h hl3
          have hlog3 : s3.stream.2 = s.stream.2 ++ ((a1 ++ a2) ++ a3) := by
            simp only [hl3, hlog2, List.append_assoc]
          cases r3 with
          | error e =>
            simp only [Option.some.injEq] at h
            subst h
            exact ⟨_, hlog3, keepsHeld_append _ _ hk2 hp3⟩
          | ok result =>
            simp only [Option.some.injEq] at h
            subst h
            exact ⟨_, hlog3, keepsHeld_append _ _ hk2 hp3⟩
        · cases hf : find_first_of buf1 with
          | none =>
            rw [hf] at h
            simp only at h
            obtain ⟨a3, hl3, hp3⟩ := ih buf1 s2 out h
            refine ⟨(a1 ++ a2) ++ a3, ?_, keepsHeld_append _ _ hk2 hp3⟩
            simp only [hl3, hlog2, List.append_assoc]
          | some found =>
            rw [hf] at h
            simp only at h
            obtain ⟨a3, hl3, hp3⟩ := seekG_keeps H (cur + (found : Int) + 1) SEEK_SET s2
            rcases hs : seekG H (cur + (found : Int) + 1) SEEK_SET s2 with ⟨r3, s3⟩
            rw [hs] at h hl3
            simp only at h hl3
            have hlog3 : s3.stream.2 = s.stream.2 ++ ((a1 ++ a2) ++ a3) := by
              simp only [hl3, hlog2, List.append_assoc]
            have hk3 := keepsHeld_append _ _ hk2 hp3
            cases r3 with
            | error e =>
              simp only [Option.some.injEq] at h
              subst h
              exact ⟨_, hlog3, hk3⟩
            | ok u =>
              simp only at h
              cases hk : skipLoopG H f [0] s3 with
              | none => rw [hk] at h; simp at h
              | some o =>
                obtain ⟨a4, hl4, hp4⟩ := skipLoopG_keeps H f [0] s3 o hk
                rw [hk] at h
                obtain ⟨r4, s4⟩ := o
                simp only at hl4
                have hlog4 : s4.stream.2 = s.stream.2 ++ (((a1 ++ a2) ++ a3) ++ a4) := by
                  simp only [hl4, hlog3, List.append_assoc]
                cases r4 with
                | error e =>
                  simp only [Option.some.injEq] at h
                  subst h
                  exact ⟨_, hlog4, keepsHeld_append _ _ hk3 hp4⟩
                | ok u2 =>
                  simp only [Option.some.injEq] at h
                  subst h
                  exact ⟨_, hlog4, keepsHeld_append _ _ hk3 hp4⟩

/-- The trace of `findAndSkipNextEOL`: one scope that holds the token over the loops. -/
theorem findAndSkipNextEOLWithG_trace (H : StreamOps σ) (w fuel : Nat)
    (s : PythonInputSource (σ × List Ev)) (out : Outcome Int (PythonInputSource (σ × List Ev)))
    (h : findAndSkipNextEOLWithG H w fuel s = some out) :
    ∃ mid, out.2.stream.2 = s.stream.2 ++ (Ev.acquire :: (mid ++ [Ev.release]))
      ∧ KeepsHeld mid := by
  unfold findAndSkipNextEOLWithG at h
  cases hk : scanLoopG H fuel (List.replicate w 0) (emit Ev.acquire s) with
  | none => rw [hk] at h; simp at h
  | some o =>
    obtain ⟨mid, hl, hp⟩ := scanLoopG_keeps H fuel _ _ o hk
    rw [hk] at h
    obtain ⟨r, s1⟩ := o
    simp only [Option.some.injEq] at h
    subst h
    refine ⟨mid, ?_, hp⟩
    simp only at hl
    simp [emit, hl]

/-! ## The operations with events compute what the operations without events compute -/

theorem tellG_untrace (H : StreamOps σ) (s : PythonInputSource (σ × List Ev)) :
    untraceOutcome (tellG H s) = tell H (untrace s) := rfl

theorem seekG_untrace (H : StreamOps σ) (offset whence : Int)
    (s : PythonInputSource (σ × List Ev)) :
    untraceOutcome (seekG H offset whence s) = seek H offset whence (untrace s) := rfl

theorem rewindG_untrace (H : StreamOps σ) (s : PythonInputSource (σ × List Ev)) :
    untraceOutcome (rewindG H s) = rewind H (untrace s) := rfl

theorem unreadChG_untrace (H : StreamOps σ) (b : Byte) (s : PythonInputSource (σ × List Ev)) :
    untraceOutcome (unreadChG H b s) = unreadCh H b (untrace s) := rfl

theorem readG_untrace (H : StreamOps σ) (buffer : List Byte) (length : Nat)
    (s : PythonInputSource (σ × List Ev)) :
    untraceOutcome (readG H buffer length s) = read H buffer length (untrace s) := by
  have h1 := tellG_untrace H (emit Ev.acquire s)
  rcases ht : tellG H (emit Ev.acquire s) with ⟨r1, s1⟩
  rw [ht] at h1
  have h1' : tell H (untrace s) = (r1, untrace s1) := h1.symm
  simp only [readG, gilScoped, ht, read, h1']
  cases r1 with
  | error e => rfl
  | ok off =>
    simp only
    have h2 : (H.readinto length (untrace s1).stream)
        = (((traced H).readinto length s1.stream).1, ((traced H).readinto length s1.stream).2.1) :=
      rfl
    rcases hr : (traced H).readinto length s1.stream with ⟨r2, st2⟩
    rw [hr] at h2
    simp only [untrace] at h2 ⊢
    rw [h2]
    cases r2 with
    | error e => rfl
    | ok v =>
      cases v with
      | none => rfl
      | some data =>
        simp only
        by_cases hd : data.length = 0
        · by_cases hn : length > 0
          · simp only [hd, hn, if_true]
            have h3 := seekG_untrace H 0 SEEK_END
              { stream := st2, name := s1.name, last_offset := off }
            rcases hs : seekG H 0 SEEK_END
              { stream := st2, name := s1.name, last_offset := off } with ⟨r3, s3⟩
            rw [hs] at h3
            have h3' : seek H 0 SEEK_END { stream := st2.1, name := s1.name, last_offset := off }
                = (r3, untrace s3) := h3.symm
            rw [h3']
            cases r3 with
            | error e => rfl
            | ok u =>
              simp only
              have h4 := tellG_untrace H s3
              rcases ht4 : tellG H s3 with ⟨r4, s4⟩
              rw [ht4] at h4
              have h4' : tell H (untrace s3) = (r4, untrace s4) := h4.symm
              rw [h4']
              cases r4 with
              | error e => rfl
              | ok off2 => rfl
          · simp only [hd, hn, if_true, if_false]
            rfl
        · simp only [hd, if_false]
          rfl

theorem skipLoopG_untrace (H : StreamOps σ) :
    ∀ (fuel : Nat) (ch : List Byte) (s : PythonInputSource (σ × List Ev)),
      (skipLoopG H fuel ch s).map untraceOutcome = skipLoop H fuel ch (untrace s) := by
  intro fuel
  induction fuel with
  | zero => intro ch s; rfl
  | succ f ih =>
    intro ch s
    have h1 := readG_untrace H ch 1 s
    rcases hr : readG H ch 1 s with ⟨r, s1⟩
    rw [hr] at h1
    have h1' : read H ch 1 (untrace s) = (r, untrace s1) := h1.symm
    simp only [skipLoopG, skipLoop, hr, h1']
    cases r with
    | error e => rfl
    | ok v =>
      obtain ⟨n, ch1⟩ := v
      simp only
      split_ifs with h0 h2
      · rfl
      · simp only [Option.map_some', ← unreadChG_untrace]
      · exact ih ch1 s1

theorem scanLoopG_untrace (H : StreamOps σ) :
    ∀ (fuel : Nat) (buf : List Byte) (s : PythonInputSource (σ × List Ev)),
      (scanLoopG H fuel buf s).map untraceOutcome = scanLoop H fuel buf (untrace s) := by
  intro fuel
  induction fuel with
  | zero => intro buf s; rfl
  | succ f ih =>
    intro buf s
    have h1 := tellG_untrace H s
    rcases ht : tellG H s with ⟨r1, s1⟩
    rw [ht] at h1
    have h1' : tell H (untrace s) = (r1, untrace s1) := h1.symm
    simp only [scanLoopG, scanLoop, ht, h1']
    cases r1 with
    | error e => rfl
    | ok cur =>
      simp only
      have h2 := readG_untrace H buf buf.length s1
      rcases hr : readG H buf buf.length s1 with ⟨r2, s2⟩
      rw [hr] at h2
      have h2' : read H buf buf.length (untrace s1) = (r2, untrace s2) := h2.symm
      rw [h2']
      cases r2 with
      | error e => rfl
      | ok v =>
        obtain ⟨len, buf1⟩ := v
        simp only
        split_ifs with h0
        · have h3 := tellG_untrace H s2
          rcases ht3 : tellG H s2 with ⟨r3, s3⟩
          rw [ht3] at h3
          have h3' : tell H (untrace s2) = (r3, untrace s3) := h3.symm
          rw [h3']
          cases r3 with
          | error e => rfl
          | ok result => rfl
        · cases hf : find_first_of buf1 with
          | none => exact ih buf1 s2
          | some found =>
            simp only
            have h3 := seekG_untrace H (cur + (found : Int) + 1) SEEK_SET s2
            rcases hs : seekG H (cur + (found : Int) + 1) SEEK_SET s2 with ⟨r3, s3⟩
            rw [hs] at h3
            have h3' : seek H (cur + (found : Int) + 1) SEEK_SET (untrace s2)
                = (r3, untrace s3) := h3.symm
            rw [h3']
            cases r3 with
            | error e => rfl
            | ok u =>
              simp only
              rw [← skipLoopG_untrace H f [0] s3]
              cases hk : skipLoopG H f [0] s3 with
              | none => rfl
              | some o =>
                obtain ⟨r4, s4⟩ := o
                cases r4 with
                | error e => rfl
                | ok u2 => rfl

/-- Without the events, `findAndSkipNextEOL` with events is `findAndSkipNextEOL`. -/
theorem findAndSkipNextEOLWithG_untrace (H : StreamOps σ) (w fuel : Nat)
    (s : PythonInputSource (σ × List Ev)) :
    (findAndSkipNextEOLWithG H w fuel s).map untraceOutcome
      = findAndSkipNextEOLWith H w fuel (untrace s) := by
  have h := scanLoopG_untrace H fuel (List.replicate w 0) (emit Ev.acquire s)
  unfold findAndSkipNextEOLWithG findAndSkipNextEOLWith
  rw [show untrace s = untrace (emit Ev.acquire s) from rfl, ← h]
  cases scanLoopG H fuel (List.replicate w 0) (emit Ev.acquire s) with
  | none => rfl
  | some o => rfl

/-! ## A failure ends the loops -/

/-- C1: on an in-memory stream that has a CR or LF byte at some index at or after
the starting position `p`, `findAndSkipNextEOL` returns (given enough fuel for its
loops) the least index `r ≥ p` at which the content has a CR or LF byte: the offset
of the first terminator, not the offset behind the run. -/
theorem findAndSkipNextEOL_returns_first_line_ending (c : List Byte) (p fuel : Nat)
    (chunks : List Nat) (last : Int)
    (hex : ∃ i, p ≤ i ∧ lineEndingAt c i = true) (hfuel : c.length - p + 1 ≤ fuel) :
    ∃ (r : Nat) (s : PythonInputSource MemStream),
      findAndSkipNextEOL memOps fuel (onMem c p chunks last) = some (.ok (r : Int), s)
      ∧ p ≤ r ∧ lineEndingAt c r = true
      ∧ ∀ j, p ≤ j → j < r → lineEndingAt c j = false := by
  obtain ⟨i, hi1, hi2⟩ := hex
  have hil := lineEndingAt_lt c i hi2
  obtain ⟨s, hs, -, -⟩ := findAndSkipNextEOLWith_mem c p 4096 fuel chunks last (by omega)
    (by omega) hfuel
  obtain ⟨h1, h2, h3⟩ := firstEOL_props c p (by omega)
  refine ⟨p + eolIdx (c.drop p), s, hs, by omega, ?_, h3⟩
  apply h2
  by_contra hge
  have := h3 i hi1 (by omega)
  rw [this] at hi2
  exact absurd hi2 (by decide)

/-- C1, witness: on the content "AB\r\nCD" from offset 0 the call returns 2. -/
theorem findAndSkipNextEOL_returns_first_line_ending_witness :
    (offsetAndPos (findAndSkipNextEOL memOps 7 (onMem [65, 66, 13, 10, 67, 68] 0 [] 0))).map
      Prod.fst = some 2 := by
  obtain ⟨r, s, h, -, h2, h3⟩ := findAndSkipNextEOL_returns_first_line_ending
    [65, 66, 13, 10, 67, 68] 0 7 [] 0 ⟨2, by decide, by decide⟩ (by decide)
  have hr : r = 2 := by
    have hle : r ≤ 2 := by
      by_contra hgt
      exact absurd (h3 2 (by omega) (by omega)) (by decide)
    interval_cases r
    · exact absurd h2 (by decide)
    · exact absurd h2 (by decide)
    · rfl
  subst hr
  rw [h]
  rfl

/-- C2: on an in-memory stream that has a CR or LF byte at or after the starting
position `p`, the call (given enough fuel, for every positive size `w` of the scan
buffer and every schedule of short reads) returns an offset `r` of a terminator and
leaves the stream at the least index `q > r` whose byte is no terminator, or at the
length of the content when every byte after `r` is one: every byte strictly between
`r` and `q` is a CR or LF, and nothing behind the run is consumed. -/
theorem findAndSkipNextEOL_leaves_position_after_run (c : List Byte) (p w fuel : Nat)
    (chunks : List Nat) (last : Int) (hw : 0 < w)
    (hex : ∃ i, p ≤ i ∧ lineEndingAt c i = true) (hfuel : c.length - p + 1 ≤ fuel) :
    ∃ (r : Nat) (s : PythonInputSource MemStream),
      findAndSkipNextEOLWith memOps w fuel (onMem c p chunks last) = some (.ok (r : Int), s)
      ∧ lineEndingAt c r = true
      ∧ r < s.stream.pos ∧ s.stream.pos ≤ c.length
      ∧ (∀ j, r < j → j < s.stream.pos → lineEndingAt c j = true)
      ∧ (s.stream.pos < c.length → lineEndingAt c s.stream.pos = false) := by
  obtain ⟨i, hi1, hi2⟩ := hex
  have hil := lineEndingAt_lt c i hi2
  obtain ⟨s, hs, -, hpos⟩ := findAndSkipNextEOLWith_mem c p w fuel chunks last (by omega)
    hw hfuel
  obtain ⟨h1, h2, h3⟩ := firstEOL_props c p (by omega)
  have hlt : p + eolIdx (c.drop p) < c.length := by
    by_contra hge
    have := h3 i hi1 (by omega)
    rw [this] at hi2
    exact absurd hi2 (by decide)
  obtain ⟨g1, g2, g3⟩ := runEnd_props c (p + eolIdx (c.drop p)) h1
  have hrun := runLen_drop_of_eol c (p + eolIdx (c.drop p)) hlt (h2 hlt)
  refine ⟨p + eolIdx (c.drop p), s, hs, h2 hlt, ?_, ?_, ?_, ?_⟩
  · rw [hpos]; omega
  · rw [hpos]; exact g1
  · intro j hj1 hj2
    rw [hpos] at hj2
    exact g2 j (by omega) hj2
  · rw [hpos]; exact g3

/-- C2, witnesses: "AB\n\rCD" leaves position 4 and "AB\r\n\r\nCD" leaves
position 6. -/
theorem findAndSkipNextEOL_leaves_position_after_run_witness :
    (offsetAndPos (findAndSkipNextEOL memOps 7 (onMem [65, 66, 10, 13, 67, 68] 0 [] 0))).map
      Prod.snd = some 4
    ∧ (offsetAndPos (findAndSkipNextEOL memOps 9
        (onMem [65, 66, 13, 10, 13, 10, 67, 68] 0 [] 0))).map Prod.snd = some 6 := by
  constructor
  · obtain ⟨r, s, h, h2, h3, h4, h5, h6⟩ := findAndSkipNextEOL_leaves_position_after_run
      [65, 66, 10, 13, 67, 68] 0 4096 7 [] 0 (by decide) ⟨2, by decide, by decide⟩ (by decide)
    have hq : s.stream.pos = 4 := by
      generalize s.stream.pos = q at h3 h4 h5 h6
      have h4b : q ≤ 6 := h4
      have hr : r < 6 := by omega
      interval_cases r <;> interval_cases q <;>
        first
          | rfl
          | exact absurd h2 (by decide)
          | exact absurd (h6 (by decide)) (by decide)
          | exact absurd (h5 4 (by omega) (by omega)) (by decide)
    rw [findAndSkipNextEOL, h]
    simp [offsetAndPos, hq]
  · obtain ⟨r, s, h, h2, h3, h4, h5, h6⟩ := findAndSkipNextEOL_leaves_position_after_run
      [65, 66, 13, 10, 13, 10, 67, 68] 0 4096 9 [] 0 (by decide) ⟨2, by decide, by decide⟩
      (by decide)
    have hq : s.stream.pos = 6 := by
      generalize s.stream.pos = q at h3 h4 h5 h6
      have h4b : q ≤ 8 := h4
      have hr : r < 8 := by omega
      interval_cases r <;> interval_cases q <;>
        first
          | rfl
          | exact absurd h2 (by decide)
          | exact absurd (h6 (by decide)) (by decide)
          | exact absurd (h5 6 (by omega) (by omega)) (by decide)
    rw [findAndSkipNextEOL, h]
    simp [offsetAndPos, hq]

/-- C3: on an in-memory stream of length `L` that has no CR and no LF byte from the
starting position on (the empty stream and a start past the end included), the call
returns `L` as a result, not an error, and `tell()` afterwards answers `L`. -/
theorem findAndSkipNextEOL_without_line_ending (c : List Byte) (p fuel : Nat)
    (chunks : List Nat) (last : Int)
    (hno : ∀ j, p ≤ j → lineEndingAt c j = false) (hfuel : c.length - p + 1 ≤ fuel) :
    ∃ s : PythonInputSource MemStream,
      findAndSkipNextEOL memOps fuel (onMem c p chunks last) = some (.ok (c.length : Int), s)
      ∧ (tell memOps s).1 = .ok (c.length : Int) ∧ s.stream.pos = c.length := by
  rcases Nat.lt_or_ge p c.length with hlt | hge
  · obtain ⟨s, hs, -, hpos⟩ := findAndSkipNextEOLWith_mem c p 4096 fuel chunks last (by omega)
      (by omega) hfuel
    obtain ⟨h1, h2, -⟩ := firstEOL_props c p (by omega)
    have hr : p + eolIdx (c.drop p) = c.length := by
      by_contra hne
      have hlt2 : p + eolIdx (c.drop p) < c.length := by omega
      have := hno _ (Nat.le_add_right p (eolIdx (c.drop p)))
      rw [h2 hlt2] at this
      exact absurd this (by decide)
    have hrun := runLen_le (c.drop (p + eolIdx (c.drop p)))
    rw [List.length_drop] at hrun
    have hpos2 : s.stream.pos = c.length := by omega
    refine ⟨s, ?_, ?_, hpos2⟩
    · rw [findAndSkipNextEOL, hs, hr]
    · simp [tell, memOps, MemStream.tell, hpos2]
  · refine ⟨onMem c c.length chunks (c.length : Int), ?_, rfl, rfl⟩
    exact findAndSkipNextEOLWith_mem_past c p 4096 fuel chunks last hge (by omega) (by omega)

/-- C3, witnesses: the empty stream gives 0 and leaves position 0; "ABC" from
offset 1 gives 3 and leaves position 3. -/
theorem findAndSkipNextEOL_without_line_ending_witness :
    offsetAndPos (findAndSkipNextEOL memOps 1 (onMem [] 0 [] 0)) = some (0, 0)
    ∧ offsetAndPos (findAndSkipNextEOL memOps 3 (onMem [65, 66, 67] 1 [] 0)) = some (3, 3) := by
  constructor
  · obtain ⟨s, h, -, hpos⟩ := findAndSkipNextEOL_without_line_ending [] 0 1 [] 0
      (fun j _ => lineEndingAt_of_le [] j (Nat.zero_le j)) (by decide)
    rw [h]
    simp [offsetAndPos, hpos]
  · obtain ⟨s, h, -, hpos⟩ := findAndSkipNextEOL_without_line_ending [65, 66, 67] 1 3 [] 0
      (fun j hj => by
        rcases Nat.lt_or_ge j 3 with h3 | h3
        · interval_cases j <;> decide
        · exact lineEndingAt_of_le _ j h3)
      (by decide)
    rw [h]
    simp [offsetAndPos, hpos]

/-- C5: with the size of the scan buffer as a parameter `w`, the call succeeds with
the same offset and the same final position for every positive `w` as with the
source's 4096, on every in-memory content, starting position `p ≤ L` and schedule of
short reads. -/
theorem findAndSkipNextEOL_buffer_size (c : List Byte) (p w fuel : Nat)
    (chunks : List Nat) (last : Int) (hp : p ≤ c.length) (hw : 0 < w)
    (hfuel : c.length - p + 1 ≤ fuel) :
    ∃ (r : Int) (q : Nat),
      offsetAndPos (findAndSkipNextEOLWith memOps w fuel (onMem c p chunks last)) = some (r, q)
      ∧ offsetAndPos (findAndSkipNextEOL memOps fuel (onMem c p chunks last)) = some (r, q) := by
  obtain ⟨s1, h1, -, hp1⟩ := findAndSkipNextEOLWith_mem c p w fuel chunks last hp hw hfuel
  obtain ⟨s2, h2, -, hp2⟩ := findAndSkipNextEOLWith_mem c p 4096 fuel chunks last hp
    (by omega) hfuel
  refine ⟨((p + eolIdx (c.drop p) : Nat) : Int),
    p + eolIdx (c.drop p) + runLen (c.drop (p + eolIdx (c.drop p))), ?_, ?_⟩
  · rw [h1, offsetAndPos, hp1]
  · rw [findAndSkipNextEOL, h2, offsetAndPos, hp2]

/-- C5, witness: buffer sizes 1 and 2 against 4096 on "AB\r\nCD". -/
theorem findAndSkipNextEOL_buffer_size_witness :
    offsetAndPos (findAndSkipNextEOLWith memOps 1 7 (onMem [65, 66, 13, 10, 67, 68] 0 [] 0))
      = offsetAndPos (findAndSkipNextEOL memOps 7 (onMem [65, 66, 13, 10, 67, 68] 0 [] 0))
    ∧ offsetAndPos (findAndSkipNextEOLWith memOps 2 7 (onMem [65, 66, 13, 10, 67, 68] 0 [] 0))
      = offsetAndPos (findAndSkipNextEOL memOps 7 (onMem [65, 66, 13, 10, 67, 68] 0 [] 0)) := by
  constructor
  · obtain ⟨r, q, h1, h2⟩ := findAndSkipNextEOL_buffer_size [65, 66, 13, 10, 67, 68] 0 1 7
      [] 0 (by decide) (by decide) (by decide)
    rw [h1, h2]
  · obtain ⟨r, q, h1, h2⟩ := findAndSkipNextEOL_buffer_size [65, 66, 13, 10, 67, 68] 0 2 7
      [] 0 (by decide) (by decide) (by decide)
    rw [h1, h2]

/-- C6: on an in-memory stream of length `L`, a `read` of a positive capacity issued
when no byte remains at the stream's position (at `L`, or past `L` after a seek)
returns 0, and afterwards `tell()` and `last_offset` are both `L`, not the offset at
which the read began. -/
theorem read_at_end_of_stream (c : List Byte) (p : Nat) (chunks : List Nat) (last : Int)
    (buffer : List Byte) (capacity : Nat) (hcap : 0 < capacity) (hp : c.length ≤ p) :
    (read memOps buffer capacity (onMem c p chunks last)).1 = .ok (0, buffer)
    ∧ (tell memOps (read memOps buffer capacity (onMem c p chunks last)).2).1
        = .ok (c.length : Int)
    ∧ (read memOps buffer capacity (onMem c p chunks last)).2.last_offset = (c.length : Int) := by
  rw [onMem, read_mem_eof c p chunks _ last buffer capacity hcap hp]
  exact ⟨rfl, rfl, rfl⟩

/-- C6, witness: the content "AB" with the position moved to 5, read of 3 bytes. -/
theorem read_at_end_of_stream_witness :
    (read memOps [0, 0, 0] 3 (onMem [65, 66] 5 [] 0)).1 = .ok (0, [0, 0, 0])
    ∧ (tell memOps (read memOps [0, 0, 0] 3 (onMem [65, 66] 5 [] 0)).2).1 = .ok 2
    ∧ (read memOps [0, 0, 0] 3 (onMem [65, 66] 5 [] 0)).2.last_offset = 2 :=
  read_at_end_of_stream [65, 66] 5 [] 0 [0, 0, 0] 3 (by decide) (by decide)

/-- C7: for every stream object whose `tell` answers `off` and whose `readinto` then
answers either the "no data" sentinel or a positive number of bytes, `read` leaves
`last_offset = off`, the position at the moment `read` was called; with the sentinel
it returns 0, leaves the buffer alone and makes no call after `readinto` (no seek);
with data it returns the number of bytes the stream reported. -/
theorem read_records_offset_before_reading (H : StreamOps σ)
    (s : PythonInputSource (σ × List Call)) (buffer : List Byte) (length : Nat)
    (off : Int) (st1 st2 : σ) (res : Option (List Byte))
    (htell : H.tell s.stream.1 = (.ok off, st1))
    (hread : H.readinto length st1 = (.ok res, st2)) :
    (res = none →
      read (logged H) buffer length s
        = (.ok (0, buffer),
           ⟨(st2, s.stream.2 ++ [Call.tell, Call.readinto length]), s.name, off⟩))
    ∧ (∀ data, res = some data → 0 < data.length →
      read (logged H) buffer length s
        = (.ok (data.length, blit data length buffer),
           ⟨(st2, s.stream.2 ++ [Call.tell, Call.readinto length]), s.name, off⟩)) := by
  constructor
  · intro hres
    subst hres
    simp [read, tell, logged, htell, hread]
  · intro data hres hpos
    subst hres
    have hne : ¬ data.length = 0 := by omega
    simp [read, tell, logged, htell, hread, hne]

/-- C7, witness: a stream with no data available at position 5, and the in-memory
stream "ABC" at position 1 read into two bytes. -/
theorem read_records_offset_before_reading_witness :
    read (logged noDataOps) [0] 1 ⟨(5, []), "s", 0⟩
      = (.ok (0, [0]), ⟨(5, [Call.tell, Call.readinto 1]), "s", 5⟩)
    ∧ read (logged memOps) [0, 0] 2 ⟨(⟨[65, 66, 67], 1, []⟩, []), "s", 0⟩
      = (.ok (2, [66, 67]), ⟨(⟨[65, 66, 67], 3, []⟩, [Call.tell, Call.readinto 2]), "s", 1⟩) :=
  ⟨(read_records_offset_before_reading noDataOps ⟨(5, []), "s", 0⟩ [0] 1 5 5 5 none
      rfl rfl).1 rfl,
   (read_records_offset_before_reading memOps ⟨(⟨[65, 66, 67], 1, []⟩, []), "s", 0⟩ [0, 0] 2 1
      ⟨[65, 66, 67], 1, []⟩ ⟨[65, 66, 67], 3, []⟩ (some [66, 67]) rfl rfl).2
      [66, 67] rfl (by decide)⟩

/-- C8: `read` makes one `readinto` request and returns the count the stream reports,
without a second request after a short read: when the in-memory stream at position
`pos` delivers `k` bytes, `1 ≤ k ≤ capacity`, `read` returns `k`, the first `k` bytes
of the buffer are the content from `pos` to `pos + k`, the stream is left at
`pos + k`, and the calls made are one `tell` and one `readinto`. -/
theorem read_returns_short_count (c : List Byte) (pos k : Nat) (ks : List Nat)
    (capacity : Nat) (buffer : List Byte) (log : List Call) (nm : String) (lo : Int)
    (h1 : 1 ≤ k) (h2 : k ≤ capacity) (h3 : pos + k ≤ c.length) :
    read (logged memOps) buffer capacity ⟨(⟨c, pos, k :: ks⟩, log), nm, lo⟩
      = (.ok (k, (c.drop pos).take k ++ buffer.drop k),
         ⟨(⟨c, pos + k, ks⟩, log ++ [Call.tell, Call.readinto capacity]), nm, (pos : Int)⟩)
    ∧ ((c.drop pos).take k ++ buffer.drop k).take k = (c.drop pos).take k
    ∧ ((c.drop pos).take k).length = k := by
  have hlen : ((c.drop pos).take k).length = k := by simp; omega
  have hav : ¬ (min capacity (c.length - pos) = 0) := by omega
  have hk : max 1 (min k (min capacity (c.length - pos))) = k := by omega
  have hne : ¬ ((c.drop pos).take k).length = 0 := by omega
  refine ⟨?_, ?_, hlen⟩
  · simp only [read, tell, logged, memOps, MemStream.tell, MemStream.readinto, hav, hk,
      if_false, hne]
    rw [blit_of_le _ _ _ (by omega), hlen]
    simp
  · rw [List.take_append_of_le_length (by omega), List.take_of_length_le (by omega)]

/-- C8, witness: "ABCDE" at position 1, a read of capacity 3 answered with 2 bytes. -/
theorem read_returns_short_count_witness :
    read (logged memOps) [0, 0, 0] 3 ⟨(⟨[65, 66, 67, 68, 69], 1, [2]⟩, []), "s", 0⟩
      = (.ok (2, [66, 67, 0]),
         ⟨(⟨[65, 66, 67, 68, 69], 3, []⟩, [Call.tell, Call.readinto 3]), "s", 1⟩) :=
  (read_returns_short_count [65, 66, 67, 68, 69] 1 2 [] 3 [0, 0, 0] [] "s" 0
    (by decide) (by decide) (by decide)).1

/-- C9: in every state of the in-memory stream (any content, any position, also at
or past the end, any schedule), `read` with capacity 0 returns 0 and leaves the
stream as it was; the calls made are one `tell` and one `readinto`, so the seek to
the end of the stream is not performed. -/
theorem read_zero_capacity (m : MemStream) (log : List Call) (nm : String) (lo : Int)
    (buffer : List Byte) :
    read (logged memOps) buffer 0 ⟨(m, log), nm, lo⟩
      = (.ok (0, buffer), ⟨(m, log ++ [Call.tell, Call.readinto 0]), nm, (m.pos : Int)⟩) := by
  simp [read, tell, logged, memOps, MemStream.tell, MemStream.readinto, blit_nil]

/-- C10: evaluation of the constructor on stream objects that report
`readable() == False` or `seekable() == False`: the test `!stream.attr("readable")()`
applies pybind11's `operator bool` of the returned object, which is true for every
returned object, so each of the three combinations constructs an object instead of
raising the value error. -/
theorem constructor_accepts_false_probes :
    (PythonInputSource.new (withCapabilities false true memOps) ⟨[], 0, []⟩).1
      = .ok ⟨⟨[], 0, []⟩, "<_io.BytesIO object>", 0⟩
    ∧ (PythonInputSource.new (withCapabilities true false memOps) ⟨[], 0, []⟩).1
      = .ok ⟨⟨[], 0, []⟩, "<_io.BytesIO object>", 0⟩
    ∧ (PythonInputSource.new (withCapabilities false false memOps) ⟨[], 0, []⟩).1
      = .ok ⟨⟨[], 0, []⟩, "<_io.BytesIO object>", 0⟩ :=
  ⟨rfl, rfl, rfl⟩

/-- C11: on an in-memory stream at a position `p` with a byte remaining, a `read` of
capacity 1 returns 1 and an `unreadCh` right after it leaves the stream at position
`p` again, whatever byte is passed to `unreadCh`. -/
theorem unreadCh_after_read_restores_position (c : List Byte) (p : Nat) (chunks : List Nat)
    (last : Int) (buffer : List Byte) (b : Byte) (hp : p < c.length) :
    (read memOps buffer 1 (onMem c p chunks last)).1
        = .ok (1, c.getD p 0 :: buffer.drop 1)
    ∧ (read memOps buffer 1 (onMem c p chunks last)).2.stream.pos = p + 1
    ∧ (unreadCh memOps b (read memOps buffer 1 (onMem c p chunks last)).2).1 = .ok ()
    ∧ (unreadCh memOps b (read memOps buffer 1 (onMem c p chunks last)).2).2.stream.pos = p := by
  have h1 := nextChunk_one c p chunks hp
  have hd : (c.drop p).take 1 = [c.getD p 0] := by
    rw [drop_eq_getD_cons c p hp]
    simp
  rw [onMem, read_mem_data c p chunks _ last buffer 1 (by omega) hp, h1, hd,
    unreadCh_ops memOps (Or.inl rfl)]
  exact ⟨rfl, rfl, rfl, rfl⟩

/-- C11, witness: "ABC" at position 1, the byte passed back differs from the byte
read. -/
theorem unreadCh_after_read_restores_position_witness :
    (unreadCh memOps 90 (read memOps [0] 1 (onMem [65, 66, 67] 1 [] 0)).2).2.stream.pos = 1 :=
  (unreadCh_after_read_restores_position [65, 66, 67] 1 [] 0 [0] 90 (by decide)).2.2.2

/-- C12: for every byte `b`, every stream object and every state, `unreadCh b` is
`seek(-1, SEEK_CUR)`: same outcome and same state (so the same for all `b`), the one
call made to the stream is `seek(-1, 1)`, `name` and `last_offset` are untouched; on
the in-memory stream the content is unchanged and the position is moved back by one,
stopping at 0. -/
theorem unreadCh_is_seek_back (H : StreamOps σ) (b : Byte)
    (s : PythonInputSource (σ × List Call)) (m : MemStream) (nm : String) (lo : Int) :
    unreadCh (logged H) b s = seek (logged H) (-1) SEEK_CUR s
    ∧ (unreadCh (logged H) b s).2.stream.2 = s.stream.2 ++ [Call.seek (-1) 1]
    ∧ (unreadCh (logged H) b s).2.name = s.name
    ∧ (unreadCh (logged H) b s).2.last_offset = s.last_offset
    ∧ unreadCh memOps b ⟨m, nm, lo⟩ = (.ok (), ⟨{ m with pos := m.pos - 1 }, nm, lo⟩) := by
  refine ⟨rfl, rfl, rfl, rfl, ?_⟩
  have h : ((m.pos : Int) + -1).toNat = m.pos - 1 := by omega
  simp [unreadCh, seek, memOps, MemStream.seek, SEEK_CUR, h]

/-- C13: for every stream object and every state, `rewind()` gives the same outcome
and the same state as `seek(0, SEEK_SET)`, by the one call `seek(0, 0)`; on the
in-memory stream it succeeds and `tell()` afterwards returns 0. -/
theorem rewind_is_seek_to_start (H : StreamOps σ) (s : PythonInputSource (σ × List Call))
    (m : MemStream) (nm : String) (lo : Int) :
    rewind (logged H) s = seek (logged H) 0 SEEK_SET s
    ∧ (rewind (logged H) s).2.stream.2 = s.stream.2 ++ [Call.seek 0 0]
    ∧ (rewind memOps ⟨m, nm, lo⟩).1 = .ok ()
    ∧ (tell memOps (rewind memOps ⟨m, nm, lo⟩).2).1 = .ok 0 := by
  refine ⟨rfl, rfl, ?_, ?_⟩
  · simp [rewind, memOps, MemStream.seek]
  · simp [rewind, tell, memOps, MemStream.seek, MemStream.tell]

/-- C14, counterexample: `findAndSkipNextEOL` on "AB\r\nCD" from offset 0, entered with
`last_offset = 0`, returns with `last_offset = 4`. -/
theorem findAndSkipNextEOL_changes_last_offset :
    (onMem [65, 66, 13, 10, 67, 68] 0 [] 0).last_offset = 0
    ∧ lastOffsetAfter (findAndSkipNextEOL memOps 7 (onMem [65, 66, 13, 10, 67, 68] 0 [] 0))
      = some 4 := by
  obtain ⟨ks2, h⟩ := findAndSkipNextEOLWith_ops memOps (Or.inl rfl) [65, 66, 13, 10, 67, 68] 0
    4096 7 [] 0 (by decide) (by decide) (by decide)
  rw [findAndSkipNextEOL, h]
  exact ⟨rfl, rfl⟩

/-- C14, amended: `last_offset` is assigned only in the body of `read`.  For every
stream object and state, `tell`, `seek`, `rewind` and `unreadCh` return with
`last_offset` as it was (`getName` has no access to the state: it is a function of
`name`).  `findAndSkipNextEOL` reads through `read` and therefore changes it: on an
in-memory stream, from a position `p ≤ L` and with enough fuel, it returns with
`last_offset` equal to the final position of the stream. -/
theorem last_offset_frame (H : StreamOps σ) (s : PythonInputSource σ) (offset whence : Int)
    (b : Byte) (c : List Byte) (p w fuel : Nat) (chunks : List Nat) (last : Int)
    (hp : p ≤ c.length) (hw : 0 < w) (hfuel : c.length - p + 1 ≤ fuel) :
    getName s = s.name
    ∧ (tell H s).2.last_offset = s.last_offset
    ∧ (seek H offset whence s).2.last_offset = s.last_offset
    ∧ (rewind H s).2.last_offset = s.last_offset
    ∧ (unreadCh H b s).2.last_offset = s.last_offset
    ∧ ∃ (r : Int) (s2 : PythonInputSource MemStream),
        findAndSkipNextEOLWith memOps w fuel (onMem c p chunks last) = some (.ok r, s2)
        ∧ s2.last_offset = (s2.stream.pos : Int) := by
  refine ⟨rfl, rfl, rfl, rfl, rfl, ?_⟩
  obtain ⟨ks2, h⟩ := findAndSkipNextEOLWith_ops memOps (Or.inl rfl) c p w fuel chunks last
    hp hw hfuel
  exact ⟨_, _, h, rfl⟩

/-- C14, witness of the amended claim: the empty stream with buffer size 1. -/
theorem last_offset_frame_witness :
    ∃ (r : Int) (s2 : PythonInputSource MemStream),
      findAndSkipNextEOLWith memOps 1 1 (onMem [] 0 [] 7) = some (.ok r, s2)
      ∧ s2.last_offset = (s2.stream.pos : Int) :=
  (last_offset_frame memOps (onMem [] 0 [] 7) 0 0 0 [] 0 1 1 [] 7 (by decide) (by decide)
    (by decide)).2.2.2.2.2

/-- C17: the search `find_first_of` runs over the whole scan buffer, but every state
in which the outer loop begins a fill has a buffer without CR and LF bytes (of the
full size `w`, over a stream with the same content); hence on the in-memory stream,
under every schedule of short reads, whenever a fill returns `len > 0` and the search
finds an index, that index is below `len` and the byte there is the content byte at
`position + index`, a byte just read. -/
theorem scan_finds_only_fresh_bytes (c : List Byte) (p w : Nat) (chunks : List Nat)
    (last : Int) (buf : List Byte) (s : PythonInputSource MemStream)
    (hfill : FillState memOps w (onMem c p chunks last) buf s) :
    (∀ b ∈ buf, isLineEnding b = false) ∧ buf.length = w ∧ s.stream.content = c
    ∧ ∀ (len : Nat) (buf1 : List Byte) (s2 : PythonInputSource MemStream) (found : Nat),
        read memOps buf buf.length (tell memOps s).2 = (.ok (len, buf1), s2) →
        0 < len → find_first_of buf1 = some found →
        found < len ∧ buf1.getD found 0 = c.getD (s.stream.pos + found) 0 := by
  have hinv : (∀ b ∈ buf, isLineEnding b = false) ∧ buf.length = w ∧ s.stream.content = c := by
    induction hfill with
    | first => exact ⟨replicate_free w, by simp, rfl⟩
    | next buf s cur s1 len buf1 s2 _ h1 h2 h3 h4 ih =>
      obtain ⟨_, ihw, ihc⟩ := ih
      obtain ⟨m, nm, lo⟩ := s
      obtain ⟨c0, p0, ks0⟩ := m
      simp only at ihc
      subst ihc
      rw [tell_mem] at h1
      simp only [Prod.mk.injEq, Except.ok.injEq] at h1
      obtain ⟨_, h1⟩ := h1
      subst h1
      obtain ⟨_, g1, g2, g3, g4, g5⟩ := read_mem_fill c0 p0 ks0 nm lo buf len buf1 s2 h2 h3
      refine ⟨find_first_of_none buf1 h4, ?_, g5⟩
      rw [g4, List.length_append, List.length_take, List.length_drop, List.length_drop]
      omega
  obtain ⟨hfree, hw, hc⟩ := hinv
  refine ⟨hfree, hw, hc, ?_⟩
  intro len buf1 s2 found hread hlen hfound
  obtain ⟨m, nm, lo⟩ := s
  obtain ⟨c0, p0, ks0⟩ := m
  simp only at hc
  subst hc
  rw [tell_mem] at hread
  obtain ⟨_, g1, g2, g3, g4, _⟩ := read_mem_fill c0 p0 ks0 nm lo buf len buf1 s2 hread (by omega)
  have hfree2 : ∀ b ∈ buf.drop len, isLineEnding b = false :=
    fun b hb => hfree b (List.mem_of_mem_drop hb)
  have hdl : ((c0.drop p0).take len).length = len := by
    rw [List.length_take, List.length_drop]; omega
  rw [g4, find_first_of_append _ _ hfree2] at hfound
  by_cases hlt : eolIdx ((c0.drop p0).take len) < ((c0.drop p0).take len).length
  · simp only [hlt, if_true, Option.some.injEq] at hfound
    subst hfound
    refine ⟨by omega, ?_⟩
    rw [g4, List.getD_append _ _ _ _ hlt]
    have he := eolIdx_take_lt (c0.drop p0) len hlt
    rw [← getD_drop]
    simp only [List.getD_eq_getElem?_getD]
    rw [List.getElem?_take_of_lt (by omega)]
  · rw [if_neg hlt] at hfound
    cases hfound

/-- C17, witness: "AB\nC" with a scan buffer of 2 bytes; the second fill starts from
the buffer "AB" at position 2 and finds the line feed at index 0. -/
theorem scan_finds_only_fresh_bytes_witness :
    (0 : Nat) < 2
    ∧ ([10, 67] : List Byte).getD 0 0 = ([65, 66, 10, 67] : List Byte).getD (2 + 0) 0 :=
  (scan_finds_only_fresh_bytes [65, 66, 10, 67] 0 2 [] 0 [65, 66]
    ⟨⟨[65, 66, 10, 67], 2, []⟩, "<_io.BytesIO object>", 0⟩
    (FillState.next [0, 0] (onMem [65, 66, 10, 67] 0 [] 0) 0 (onMem [65, 66, 10, 67] 0 [] 0) 2
      [65, 66] ⟨⟨[65, 66, 10, 67], 2, []⟩, "<_io.BytesIO object>", 0⟩
      FillState.first rfl rfl (by decide) rfl)).2.2.2
    2 [10, 67] ⟨⟨[65, 66, 10, 67], 4, []⟩, "<_io.BytesIO object>", 2⟩ 0 rfl (by decide) rfl

/-- C18: `findAndSkipNextEOL` terminates on every finite stream: for every content
of length `L`, every starting position `p`, every schedule of short reads (each read
with data remaining delivers at least one byte) and either answer at the end of the
data (a count of 0 or the `None` sentinel), the call returns a result as soon as the
fuel, which bounds the iterations of both loops together, is at least `L - p + 1`;
and the byte-by-byte skip loop started at any position `q ≤ L` ends within
`L - q + 1` iterations. -/
theorem findAndSkipNextEOL_terminates (H : StreamOps MemStream)
    (hH : H = memOps ∨ H = memOpsNone) (c : List Byte) (p fuel : Nat) (chunks : List Nat)
    (last : Int) (hfuel : c.length - p + 1 ≤ fuel) :
    (∃ (r : Int) (s2 : PythonInputSource MemStream),
      findAndSkipNextEOL H fuel (onMem c p chunks last) = some (.ok r, s2))
    ∧ ∀ (q : Nat) (ch : List Byte), q ≤ c.length → c.length - q + 1 ≤ fuel →
        ∃ s2 : PythonInputSource MemStream,
          skipLoop H fuel ch (onMem c q chunks last) = some (.ok (), s2) := by
  constructor
  · rcases Nat.lt_or_ge c.length p with hgt | hle
    · rcases hH with rfl | rfl
      · exact ⟨_, _, findAndSkipNextEOLWith_mem_past c p 4096 fuel chunks last (by omega)
          (by omega) (by omega)⟩
      · exact ⟨_, _, findAndSkipNextEOLWith_none_past c p 4096 fuel chunks last (by omega)
          (by omega)⟩
    · obtain ⟨ks2, h⟩ := findAndSkipNextEOLWith_ops H hH c p 4096 fuel chunks last hle
        (by omega) hfuel
      exact ⟨_, _, h⟩
  · intro q ch hq hf
    obtain ⟨ks2, h⟩ := skipLoop_ops H hH c "<_io.BytesIO object>" fuel q ch chunks last hq hf
    exact ⟨_, h⟩

/-- C18, witness: "AB\r\nCD" read one byte at a time, on the stream object that
answers `None` at the end, with fuel 7. -/
theorem findAndSkipNextEOL_terminates_witness :
    ∃ (r : Int) (s2 : PythonInputSource MemStream),
      findAndSkipNextEOL memOpsNone 7 (onMem [65, 66, 13, 10, 67, 68] 0 [1, 1, 1] 0)
        = some (.ok r, s2) :=
  (findAndSkipNextEOL_terminates memOpsNone (Or.inr rfl) [65, 66, 13, 10, 67, 68] 0 7
    [1, 1, 1] 0 (by decide)).1

/-- C19: repeated calls enumerate the line boundaries.  On an in-memory stream with
content `c` of length `L`, `n` calls of `findAndSkipNextEOL` in a row from position 0
(each with enough fuel) return the start offsets of the maximal runs of consecutive
CR/LF bytes of `c` in order, one per call, and `L` on every call after the last run;
when `n` exceeds the number of runs the stream is left at `L`.  The run starts are
strictly increasing, and they are exactly the indexes that hold a CR or LF byte with
no CR or LF byte right before it. -/
theorem repeated_calls_enumerate_runs (c : List Byte) (n fuel : Nat) (chunks : List Nat)
    (last : Int) (hfuel : c.length + 1 ≤ fuel) :
    (∃ s2 : PythonInputSource MemStream,
      repeatCalls memOps fuel n (onMem c 0 chunks last)
        = some (answers (c.length : Int) n ((runStarts c).map Int.ofNat), s2)
      ∧ ((runStarts c).length < n → s2.stream.pos = c.length))
    ∧ (runStarts c).Pairwise (fun a b => a < b)
    ∧ ∀ i, i ∈ runStarts c
        ↔ (lineEndingAt c i = true ∧ (i = 0 ∨ lineEndingAt c (i - 1) = false)) := by
  obtain ⟨qf, ks2, lo2, h1, h2⟩ := repeatCalls_mem c fuel hfuel n 0 chunks last (Nat.zero_le _)
    (Or.inl rfl)
  refine ⟨⟨_, h1, ?_⟩, runStarts_pairwise c, mem_runStarts c⟩
  intro h
  exact h2 (Or.inl h)

/-- C19, witness: "A\n\nB\rC" has runs starting at 1 and 4; four calls return 1, 4, 6
and 6. -/
theorem repeated_calls_enumerate_runs_witness :
    (repeatCalls memOps 7 4 (onMem [65, 10, 10, 66, 13, 67] 0 [] 0)).map Prod.fst
      = some [1, 4, 6, 6] := by
  obtain ⟨⟨s2, h, -⟩, -, -⟩ := repeated_calls_enumerate_runs [65, 10, 10, 66, 13, 67] 4 7 [] 0
    (by decide)
  rw [h]
  rfl

/-- C16, counterexample: the traces of `read` on "A" and of `findAndSkipNextEOL` (scan
buffer of 4096 bytes) on "A\nB" break the discipline of one acquisition per call: the
token acquired on entry is still held when the next call to the stream is made. -/
theorem token_held_across_calls :
    perCallScoped 0 true (traceOf (some (readG memOps [0] 1 ⟨(⟨[65], 0, []⟩, []), "s", 0⟩)))
      = false
    ∧ perCallScoped 0 true
        (traceOf (findAndSkipNextEOLG memOps 3 ⟨(⟨[65, 10, 66], 0, []⟩, []), "s", 0⟩)) = false := by
  constructor
  · decide
  · unfold findAndSkipNextEOLG findAndSkipNextEOLWithG
    generalize hb : List.replicate 4096 (0 : Byte) = buf
    have hlen : buf.length = 4096 := by rw [← hb, List.length_replicate]
    simp [scanLoopG, skipLoopG, tellG, readG, seekG, unreadChG, gilScoped, emit, traced, memOps,
      MemStream.tell, MemStream.readinto, MemStream.seek, SEEK_END, SEEK_SET, SEEK_CUR, traceOf,
      perCallScoped, hlen, blit, find_first_of, isLineEnding, CR, LF]

/-- C16, amended: every call to the stream made by `tell`, `seek`, `rewind`, `read`,
`unreadCh` and `findAndSkipNextEOL` happens while the token is held.  `tell`, `seek`,
`rewind` and `unreadCh` acquire the token, make their one call and release it.
`read` and `findAndSkipNextEOL` acquire the token on entry and release it when they
are left: between these two events the token stays held over all the calls they make
(the acquisitions of the methods they call nest), in `findAndSkipNextEOL` over the
whole of both loops. -/
theorem token_scopes (H : StreamOps σ) (s : PythonInputSource (σ × List Ev))
    (buffer : List Byte) (length : Nat) (offset whence : Int) (b : Byte) (w fuel : Nat)
    (out : Outcome Int (PythonInputSource (σ × List Ev)))
    (hout : findAndSkipNextEOLWithG H w fuel s = some out) :
    (tellG H s).2.stream.2 = s.stream.2 ++ [Ev.acquire, Ev.call Call.tell, Ev.release]
    ∧ (seekG H offset whence s).2.stream.2
        = s.stream.2 ++ [Ev.acquire, Ev.call (Call.seek offset whence), Ev.release]
    ∧ (rewindG H s).2.stream.2
        = s.stream.2 ++ [Ev.acquire, Ev.call (Call.seek 0 0), Ev.release]
    ∧ (unreadChG H b s).2.stream.2
        = s.stream.2 ++ [Ev.acquire, Ev.call (Call.seek (-1) 1), Ev.release]
    ∧ (∃ mid, (readG H buffer length s).2.stream.2
          = s.stream.2 ++ (Ev.acquire :: (mid ++ [Ev.release]))
        ∧ heldFrom 1 mid = some 1)
    ∧ (∃ mid, out.2.stream.2 = s.stream.2 ++ (Ev.acquire :: (mid ++ [Ev.release]))
        ∧ heldFrom 1 mid = some 1) := by
  refine ⟨tellG_trace H s, seekG_trace H offset whence s, rewindG_trace H s,
    unreadChG_trace H b s, ?_, ?_⟩
  · obtain ⟨mid, h1, h2⟩ := readG_trace H buffer length s
    exact ⟨mid, h1, h2 1 (le_refl 1)⟩
  · obtain ⟨mid, h1, h2⟩ := findAndSkipNextEOLWithG_trace H w fuel s out hout
    exact ⟨mid, h1, h2 1 (le_refl 1)⟩

/-- C16, witness of the amended claim: the empty in-memory stream, scan buffer of 2
bytes. -/
theorem token_scopes_witness :
    ∃ mid, [Ev.acquire, Ev.acquire, Ev.call Call.tell, Ev.release,
        Ev.acquire, Ev.acquire, Ev.call Call.tell, Ev.release, Ev.call (Call.readinto 2),
        Ev.acquire, Ev.call (Call.seek 0 2), Ev.release,
        Ev.acquire, Ev.call Call.tell, Ev.release, Ev.release,
        Ev.acquire, Ev.call Call.tell, Ev.release, Ev.release]
        = [] ++ (Ev.acquire :: (mid ++ [Ev.release]))
      ∧ heldFrom 1 mid = some 1 :=
  (token_scopes memOps ⟨(⟨[], 0, []⟩, []), "s", 0⟩ [] 0 0 0 0 2 1
    (.ok 0, ⟨(⟨[], 0, []⟩,
      [Ev.acquire, Ev.acquire, Ev.call Call.tell, Ev.release,
        Ev.acquire, Ev.acquire, Ev.call Call.tell, Ev.release, Ev.call (Call.readinto 2),
        Ev.acquire, Ev.call (Call.seek 0 2), Ev.release,
        Ev.acquire, Ev.call Call.tell, Ev.release, Ev.release,
        Ev.acquire, Ev.call Call.tell, Ev.release, Ev.release]), "s", 0⟩)
    rfl).2.2.2.2.2

end PikePdf
